import Mathlib

/-!
# Verification of the MQT Debugger code preprocessing and simulation stepping

This development is a shallow embedding of the preprocessing pipeline of
`src/common/parsing/CodePreprocessing.cpp` (comment stripping, block sweeping,
target validation, register declaration handling, assertion target unfolding,
instruction emission and function-call linking), of the `ParsingError`
structure of `src/common/parsing/ParsingError.cpp`, and of a spec-modelled
reversible simulator stepping over quantum states.

Strings are modelled as `List Char`.  `size_t` values are modelled as `Nat`
with explicit `2 ^ 64` bounds at the places where the C++ code can overflow
or where `std::stoul` can throw `std::out_of_range`; signed quantities that
the C++ code keeps in (possibly wrapping) machine integers are modelled as
`Int` where the sign matters.  Throwing code is modelled with `Option` /
`Except`.  Recursive loops of the source are modelled with an explicit
structural fuel parameter so that all definitions reduce in the kernel; the
fuel supplied by the public entry points is large enough for the loops of the
source, which all perform a bounded number of iterations.

The data-dependency pass of `preprocessCode` (the `variableUsages` /
`dataDependencies` bookkeeping) is not modelled: no claim refers to it, and it
has no observable effect on any field or error considered here.
-/

deriving instance DecidableEq for Except

namespace MQTDebugger

/-- Characters strings, the model of `std::string`. -/
abbrev Str := List Char

/-- Modelled from the spec: whitespace test used by the helper functions
`trim` and `removeWhitespace` of `Utils.cpp` (Utils.cpp is not under src/);
standard C++ whitespace characters. -/
def isWSChar (c : Char) : Bool :=
  c = ' ' || c = '\t' || c = '\n' || c = '\r'

/-- Modelled from the spec: `trim` of `Utils.cpp` (not under src/), removing
whitespace from both ends of a string. -/
def trim (s : Str) : Str :=
  ((s.dropWhile isWSChar).reverse.dropWhile isWSChar).reverse

/-- Modelled from the spec: `splitString` of `Utils.cpp` (not under src/) with
`includeEmpty = true` (the default): split on any of the delimiter characters,
keeping empty fragments.  Splitting the empty string yields `[[]]`. -/
def splitStringKeep (s : Str) (delims : List Char) : List Str :=
  match s with
  | [] => [[]]
  | c :: t =>
    if delims.contains c then
      [] :: splitStringKeep t delims
    else
      match splitStringKeep t delims with
      | [] => [[c]]
      | p :: ps => (c :: p) :: ps

/-- Modelled from the spec: `splitString` of `Utils.cpp` (not under src/) with
`includeEmpty = false`: empty fragments are dropped. -/
def splitStringDrop (s : Str) (delims : List Char) : List Str :=
  (splitStringKeep s delims).filter (fun p => !p.isEmpty)

/-- Modelled from the spec: `removeWhitespace` of `Utils.cpp` (not under
src/): delete every whitespace character. -/
def removeWhitespace (s : Str) : Str :=
  s.filter (fun c => !isWSChar c)

/-- Fueled worker for `replaceString`.  Each step either copies one character
or skips one occurrence of the (nonempty) pattern, so fuel `s.length`
suffices. -/
def replaceStringF : Nat → Str → Str → Str → Str
  | 0, s, _, _ => s
  | _ + 1, [], _, _ => []
  | fuel + 1, c :: t, pat, rep =>
    if pat ≠ [] ∧ pat.isPrefixOf (c :: t) then
      rep ++ replaceStringF fuel ((c :: t).drop pat.length) pat rep
    else
      c :: replaceStringF fuel t pat rep

/-- Modelled from the spec: `replaceString` of `Utils.cpp` (not under src/):
replace every occurrence of `pat` by `rep`, left to right, not rescanning the
replacement text. -/
def replaceString (s pat rep : Str) : Str :=
  replaceStringF s.length s pat rep

/-- Position search: smallest index `i ≥ 0` (relative to `s`) such that `pat`
is a prefix of `s.drop i`; the model of `std::string::find` on a suffix. -/
def findSubAux (pat : Str) : Str → Nat → Option Nat
  | s, i =>
    if pat.isPrefixOf s then some i
    else
      match s with
      | [] => none
      | _ :: t => findSubAux pat t (i + 1)

/-- The model of `std::string::find(pat, start)`: smallest absolute index
`i ≥ start` at which `pat` occurs in `s`. -/
def findSubFrom (s pat : Str) (start : Nat) : Option Nat :=
  findSubAux pat (s.drop start) start

/-- The model of `std::string::find(c, start)` for a single character. -/
def findCharFrom (s : Str) (c : Char) (start : Nat) : Option Nat :=
  findSubFrom s [c] start

/-- Worker for `rfindCharUpTo`: scan upward, remembering the last hit. -/
def rfindAux (c : Char) (upTo : Nat) : Str → Nat → Option Nat → Option Nat
  | [], _, best => best
  | d :: t, i, best =>
    if i ≤ upTo ∧ d = c then rfindAux c upTo t (i + 1) (some i)
    else if i ≤ upTo then rfindAux c upTo t (i + 1) best
    else best

/-- The model of `std::string::rfind(c, upTo)`: the largest index `i ≤ upTo`
with `s.get i = c`. -/
def rfindCharUpTo (s : Str) (c : Char) (upTo : Nat) : Option Nat :=
  rfindAux c upTo s 0 none

/-- The model of `std::string::find_first_not_of(set, start)`. -/
def findFirstNotOfFrom (s : Str) (set : List Char) (start : Nat) : Option Nat :=
  match (s.drop start).findIdx? (fun c => !set.contains c) with
  | none => none
  | some i => some (start + i)

/-- The model of `std::string::substr(pos, len)` (clamping, as in C++). -/
def substrC (s : Str) (pos len : Nat) : Str :=
  (s.drop pos).take len

/-- Digit table for printing naturals in decimal. -/
def digitChar (d : Nat) : Char :=
  (['0', '1', '2', '3', '4', '5', '6', '7', '8', '9'].getD d '0')

/-- Fueled worker for `natToStr`. -/
def natToStrF : Nat → Nat → Str
  | 0, _ => []
  | fuel + 1, n =>
    if n < 10 then [digitChar n]
    else natToStrF fuel (n / 10) ++ [digitChar (n % 10)]

/-- Decimal representation of a natural number, the model of
`std::to_string`. -/
def natToStr (n : Nat) : Str :=
  natToStrF (n + 1) n

/-- ASCII digit test, the model of `std::isdigit` on an unsigned char. -/
def isDigitChar (c : Char) : Bool :=
  48 ≤ c.toNat ∧ c.toNat ≤ 57

/-- `isDigits` of `CodePreprocessing.cpp` (lines 43-49): a string is nonempty
and all of its characters are ASCII digits. -/
def isDigits (text : Str) : Bool :=
  if text.isEmpty then false
  else text.all (fun c => isDigitChar c)

/-- Numeric value of a digit string (most significant first), the exact value
`std::stoul` returns when it does not throw. -/
def natOfDigits (ds : Str) : Nat :=
  ds.foldl (fun acc c => 10 * acc + (c.toNat - 48)) 0

/-- The bound above which `std::stoul` throws `std::out_of_range` on an
LP64 platform (`unsigned long` is 64 bits wide). -/
def stoulBound : Nat := 2 ^ 64

/-- First-match association-list lookup, the model of lookups in the
`std::map`s of `CodePreprocessing.cpp` (ordering by key is irrelevant for the
lookups performed there). -/
def lookupAssoc {β : Type} (l : List (Str × β)) (k : Str) : Option β :=
  match l with
  | [] => none
  | (a, b) :: t => if a = k then some b else lookupAssoc t k

/-- The model of `std::map::insert`: the binding is added only when the key is
absent; an existing binding is never overwritten. -/
def insertAssoc {β : Type} (l : List (Str × β)) (k : Str) (v : β) :
    List (Str × β) :=
  if (lookupAssoc l k).isSome then l else l ++ [(k, v)]

/-- The model of the `ParsingError` of `ParsingError.cpp`: structured fields
`line`, `column`, `detail` (`0`, `0` when unknown) plus the `what()` message
held by the underlying `std::runtime_error`. -/
structure PError where
  line : Nat
  column : Nat
  detail : Str
  message : Str
  deriving DecidableEq, Inhabited, Repr

/-- The single-argument constructor `ParsingError(const std::string& msg)` of
`ParsingError.cpp` (lines 23-24): message and detail are the given string, and
the structured location stays at its `0` defaults. -/
def mkPError1 (msg : Str) : PError :=
  { line := 0, column := 0, detail := msg, message := msg }

/-- `LineColumn` of `CodePreprocessing.cpp` (lines 51-54). -/
structure LineColumn where
  line : Nat
  column : Nat
  deriving DecidableEq, Inhabited, Repr

/-- `lineColumnForOffset` of `CodePreprocessing.cpp` (lines 62-76): 1-based
line and column of a character offset.  The column computation
`offset - lineStart + 1` is performed in `size_t` in the source; writing it as
`offset + 1 - lineStart` in `Nat` yields the same value, including the wrap to
`0` when the offset points at the newline ending the previous line. -/
def lineColumnForOffset (code : Str) (offset : Nat) : LineColumn :=
  let lineStart : Nat :=
    match rfindCharUpTo code '\n' offset with
    | none => 0
    | some p => p + 1
  { line := 1 + (code.take lineStart).count '\n',
    column := offset + 1 - lineStart }

/-- `lineColumnForTarget` of `CodePreprocessing.cpp` (lines 85-109): locate a
target token on the line of the instruction start, falling back to the first
non-space column.  The case `lineEnd < lineStart` mirrors the `size_t` wrap of
`lineEnd - lineStart` followed by the clamping of `std::string::substr`. -/
def lineColumnForTarget (code : Str) (instructionStart : Nat) (target : Str) :
    LineColumn :=
  let location := lineColumnForOffset code instructionStart
  let lineStart : Nat :=
    match rfindCharUpTo code '\n' instructionStart with
    | none => 0
    | some p => p + 1
  let lineEnd : Nat := (findCharFrom code '\n' instructionStart).getD code.length
  let lineText : Str :=
    if lineEnd < lineStart then code.drop lineStart
    else substrC code lineStart (lineEnd - lineStart)
  match (if target.isEmpty then none else findSubFrom lineText target 0) with
  | some targetPos => { location with column := targetPos + 1 }
  | none =>
    match findFirstNotOfFrom lineText [' ', '\t'] 0 with
    | some nonSpace => { location with column := nonSpace + 1 }
    | none => location

/-- `formatParseError` of `CodePreprocessing.cpp` (lines 119-125): the message
text for a parse error, of the shape of a compiler diagnostic. -/
def formatParseError (code : Str) (instructionStart : Nat) (detail : Str)
    (target : Str := []) : Str :=
  let location := lineColumnForTarget code instructionStart target
  "<input>:".data ++ natToStr location.line ++ ":".data ++
    natToStr location.column ++ ": ".data ++ detail

/-- `invalidTargetDetail` of `CodePreprocessing.cpp` (lines 133-140). -/
def invalidTargetDetail (target context : Str) : Str :=
  "Invalid target qubit ".data ++ target ++ context ++ ".".data

/-- `invalidRegisterDetail` of `CodePreprocessing.cpp` (lines 147-152). -/
def invalidRegisterDetail (trimmedLine : Str) : Str :=
  "Invalid register declaration ".data ++ trimmedLine ++ ".".data

/-- The body of the per-target loop of `validateTargets` of
`CodePreprocessing.cpp` (lines 168-210): `some` is a thrown `ParsingError`,
`none` is a target that passes.  The `stoulBound` test models the
`std::stoul` call of line 194 throwing `std::out_of_range` (caught and
rethrown as a `ParsingError` on lines 195-199); it sits before the
shadowed-register test, exactly as in the source. -/
def validateTarget (code : Str) (instructionStart : Nat) (target : Str)
    (definedRegisters : List (Str × Nat)) (shadowedRegisters : List Str)
    (context : Str) : Option PError :=
  if target.isEmpty then
    some (mkPError1 (formatParseError code instructionStart
      ("Empty target".data ++ context ++ ".".data)))
  else
    match findCharFrom target '[' 0 with
    | none => none
    | some opn =>
      let err := some (mkPError1 (formatParseError code instructionStart
        (invalidTargetDetail target context) target))
      match findCharFrom target ']' (opn + 1) with
      | none => err
      | some cls =>
        if opn = 0 ∨ cls ≠ target.length - 1 then err
        else
          let registerName := substrC target 0 opn
          let indexText := substrC target (opn + 1) (cls - opn - 1)
          if ¬ isDigits indexText then err
          else if stoulBound ≤ natOfDigits indexText then err
          else if shadowedRegisters.contains registerName then none
          else
            match lookupAssoc definedRegisters registerName with
            | none => err
            | some sz =>
              if sz ≤ natOfDigits indexText then err else none

/-- `validateTargets` of `CodePreprocessing.cpp` (lines 163-211): check every
target in order; the first failing target throws. -/
def validateTargets (code : Str) (instructionStart : Nat) (targets : List Str)
    (definedRegisters : List (Str × Nat)) (shadowedRegisters : List Str)
    (context : Str) : Option PError :=
  match targets with
  | [] => none
  | t :: rest =>
    match validateTarget code instructionStart t definedRegisters
        shadowedRegisters context with
    | some e => some e
    | none =>
      validateTargets code instructionStart rest definedRegisters
        shadowedRegisters context

/-! ## Search lemmas for structured targets -/

theorem findSubAux_single_not {c : Char} {s : Str} (h : c ∉ s) (i : Nat) :
    findSubAux [c] s i = none := by
  induction s generalizing i with
  | nil => simp [findSubAux, List.isPrefixOf]
  | cons d t ih =>
    have hcd : c ≠ d := fun hEq => h (hEq ▸ List.mem_cons_self d t)
    have hct : c ∉ t := fun hm => h (List.mem_cons_of_mem d hm)
    simp only [findSubAux, List.isPrefixOf, List.isPrefixOf_nil_left,
      Bool.and_true]
    rw [if_neg (by simp [hcd])]
    exact ih hct (i + 1)

theorem findSubAux_single_append {c : Char} {s₁ : Str} (h : c ∉ s₁)
    (s₂ : Str) (i : Nat) :
    findSubAux [c] (s₁ ++ c :: s₂) i = some (i + s₁.length) := by
  induction s₁ generalizing i with
  | nil => simp [findSubAux, List.isPrefixOf]
  | cons d t ih =>
    have hcd : c ≠ d := fun hEq => h (hEq ▸ List.mem_cons_self d t)
    have hct : c ∉ t := fun hm => h (List.mem_cons_of_mem d hm)
    rw [List.cons_append]
    simp only [findSubAux, List.isPrefixOf, List.isPrefixOf_nil_left,
      Bool.and_true]
    rw [if_neg (by simp [hcd])]
    rw [ih hct (i + 1)]
    simp [List.length_cons]
    omega

theorem isDigits_no_brackets {ds : Str} (hd : isDigits ds = true) :
    '[' ∉ ds ∧ ']' ∉ ds := by
  unfold isDigits at hd
  by_cases he : ds.isEmpty
  · simp [he] at hd
  · rw [if_neg he] at hd
    rw [List.all_eq_true] at hd
    constructor
    · intro hm
      have := hd _ hm
      simp [isDigitChar] at this
    · intro hm
      have := hd _ hm
      simp [isDigitChar] at this

/-- Computation of `validateTarget` on a well-formed bracketed target
`name[ds]` where `name` is nonempty and bracket-free and `ds` is a digit
string: the outcome depends only on the `std::stoul` range test, the shadow
test, and the register table. -/
theorem validateTarget_bracketed (code : Str) (start : Nat) (name ds : Str)
    (definedRegisters : List (Str × Nat)) (shadowedRegisters : List Str)
    (context : Str) (hn : name ≠ []) (hnb : '[' ∉ name)
    (hd : isDigits ds = true) :
    validateTarget code start (name ++ '[' :: (ds ++ [']'])) definedRegisters
        shadowedRegisters context =
      (if stoulBound ≤ natOfDigits ds then
        some (mkPError1 (formatParseError code start
          (invalidTargetDetail (name ++ '[' :: (ds ++ [']'])) context)
          (name ++ '[' :: (ds ++ [']']))))
      else if shadowedRegisters.contains name then none
      else
        match lookupAssoc definedRegisters name with
        | none =>
          some (mkPError1 (formatParseError code start
            (invalidTargetDetail (name ++ '[' :: (ds ++ [']'])) context)
            (name ++ '[' :: (ds ++ [']']))))
        | some sz =>
          if sz ≤ natOfDigits ds then
            some (mkPError1 (formatParseError code start
              (invalidTargetDetail (name ++ '[' :: (ds ++ [']'])) context)
              (name ++ '[' :: (ds ++ [']']))))
          else none) := by
  obtain ⟨hdso, hdsc⟩ := isDigits_no_brackets hd
  have hne : (name ++ '[' :: (ds ++ [']'])).isEmpty = false := by
    cases name with
    | nil => exact absurd rfl hn
    | cons a b => simp
  have hopen : findCharFrom (name ++ '[' :: (ds ++ [']'])) '[' 0 =
      some name.length := by
    unfold findCharFrom findSubFrom
    rw [List.drop_zero, findSubAux_single_append hnb]
    simp
  have hdrop : (name ++ '[' :: (ds ++ [']'])).drop (name.length + 1) =
      ds ++ [']'] := by
    have heq : name ++ '[' :: (ds ++ [']']) =
        (name ++ ['[']) ++ (ds ++ [']']) := by simp
    have hl : name.length + 1 = (name ++ ['[']).length := by simp
    rw [heq, hl, List.drop_left]
  have hclose : findCharFrom (name ++ '[' :: (ds ++ [']'])) ']'
      (name.length + 1) = some (name.length + 1 + ds.length) := by
    unfold findCharFrom findSubFrom
    rw [hdrop]
    have heq : ds ++ [']'] = ds ++ ']' :: [] := rfl
    rw [heq, findSubAux_single_append hdsc]
  have hlen : (name ++ '[' :: (ds ++ [']'])).length =
      name.length + ds.length + 2 := by
    simp
    omega
  have hnameTake : substrC (name ++ '[' :: (ds ++ [']'])) 0 name.length =
      name := by
    unfold substrC
    rw [List.drop_zero]
    exact List.take_left name ('[' :: (ds ++ [']']))
  have hidxText : substrC (name ++ '[' :: (ds ++ [']'])) (name.length + 1)
      (name.length + 1 + ds.length - name.length - 1) = ds := by
    unfold substrC
    rw [hdrop]
    have heqn : name.length + 1 + ds.length - name.length - 1 = ds.length := by
      omega
    rw [heqn]
    exact List.take_left ds [']']
  have hcond : ¬ (name.length = 0 ∨
      name.length + 1 + ds.length ≠ (name ++ '[' :: (ds ++ [']'])).length - 1) := by
    push_neg
    constructor
    · intro h0
      exact hn (List.eq_nil_of_length_eq_zero h0)
    · omega
  unfold validateTarget
  rw [hne]
  simp only [Bool.false_eq_true, if_false]
  rw [hopen]
  simp only []
  rw [hclose]
  simp only []
  rw [if_neg hcond, hnameTake, hidxText]
  rw [if_neg (by simp [hd])]

/-- Claim C3: for every target of the form `name[k]` (with `name` nonempty
and bracket-free and `k` a digit string whose value every register size can be
compared against, register sizes being `size_t` values in the source), target
validation throws if and only if `name` is not shadowed and (`name` is not a
declared register or `k ≥ size(name)`); in particular a shadowed register
name with a representable index is exempt from the index check. -/
theorem claim_C3 (code : Str) (start : Nat) (name ds : Str)
    (definedRegisters : List (Str × Nat)) (shadowedRegisters : List Str)
    (context : Str) (hn : name ≠ []) (hnb : '[' ∉ name)
    (hd : isDigits ds = true)
    (hsz : ∀ s, lookupAssoc definedRegisters name = some s → s < stoulBound) :
    (name ∉ shadowedRegisters →
      ((validateTarget code start (name ++ '[' :: (ds ++ [']']))
          definedRegisters shadowedRegisters context).isSome ↔
        (lookupAssoc definedRegisters name = none ∨
          ∃ s, lookupAssoc definedRegisters name = some s ∧
            s ≤ natOfDigits ds))) ∧
    (name ∈ shadowedRegisters → natOfDigits ds < stoulBound →
      validateTarget code start (name ++ '[' :: (ds ++ [']']))
        definedRegisters shadowedRegisters context = none) := by
  rw [validateTarget_bracketed code start name ds definedRegisters
    shadowedRegisters context hn hnb hd]
  constructor
  · intro hns
    by_cases hbig : stoulBound ≤ natOfDigits ds
    · rw [if_pos hbig]
      simp only [Option.isSome_some, true_iff]
      cases hlk : lookupAssoc definedRegisters name with
      | none => exact Or.inl rfl
      | some s =>
        exact Or.inr ⟨s, rfl, le_trans (le_of_lt (hsz s hlk)) hbig⟩
    · rw [if_neg hbig]
      rw [if_neg (by simpa using hns)]
      cases hlk : lookupAssoc definedRegisters name with
      | none => simp [hlk]
      | some s =>
        simp only []
        by_cases hle : s ≤ natOfDigits ds
        · rw [if_pos hle]
          simp only [Option.isSome_some, true_iff]
          exact Or.inr ⟨s, rfl, hle⟩
        · rw [if_neg hle]
          simp [hle]
  · intro hs hrep
    rw [if_neg (by omega)]
    rw [if_pos (by simpa using hs)]

/-- Witness for claim C3 at concrete inputs: register `q` of size `2`,
target `q[3]` (not shadowed, index out of range, so validation throws) and
target `q[1]` shadowed (exempt). -/
theorem claim_C3_witness :
    (("q".data ∉ ([] : List Str) →
      ((validateTarget [] 0 ("q".data ++ '[' :: ("3".data ++ [']']))
          [("q".data, 2)] [] []).isSome ↔
        (lookupAssoc [("q".data, 2)] "q".data = none ∨
          ∃ s, lookupAssoc [("q".data, 2)] "q".data = some s ∧
            s ≤ natOfDigits "3".data))) ∧
    ("q".data ∈ ([] : List Str) → natOfDigits "3".data < stoulBound →
      validateTarget [] 0 ("q".data ++ '[' :: ("3".data ++ [']']))
        [("q".data, 2)] [] [] = none)) := by
  exact claim_C3 [] 0 "q".data "3".data [("q".data, 2)] [] []
    (by decide) (by decide) (by decide)
    (by
      intro s hs
      simp [lookupAssoc] at hs
      rw [← hs]
      decide)

/-! ## Assertions and target unfolding -/

/-- Modelled from the spec: assertion kinds of the assertion grammar (§4.2),
`AssertionParsing.cpp` not being under src/. -/
inductive AssertKind
  | ent
  | sup
  | eqk
  | ineq
  deriving DecidableEq, Inhabited, Repr

/-- Modelled from the spec: an assertion object of `AssertionParsing.cpp`
(not under src/): a kind, the ordered target list, and the raw body text. -/
structure AssertionA where
  kind : AssertKind
  targets : List Str
  body : Str
  deriving DecidableEq, Inhabited, Repr

/-- Forward loop of `unfoldAssertionTargetRegisters` of
`CodePreprocessing.cpp` (lines 330-346): the rebuilt target list, together
with the `found` flag recording whether any whole-register target was
expanded. -/
def unfoldTargetsLoop (definedRegisters : List (Str × Nat))
    (shadowedRegisters : List Str) : List Str → (List Str × Bool)
  | [] => ([], false)
  | target :: rest =>
    let r := unfoldTargetsLoop definedRegisters shadowedRegisters rest
    if shadowedRegisters.contains target then (target :: r.1, r.2)
    else
      match lookupAssoc definedRegisters target with
      | some n =>
        ((List.range n).map (fun j => target ++ '[' :: (natToStr j ++ [']']))
          ++ r.1, true)
      | none => (target :: r.1, r.2)

/-- `unfoldAssertionTargetRegisters` of `CodePreprocessing.cpp`
(lines 327-351): the target list of the assertion is replaced only when the
`found` flag was set. -/
def unfoldAssertionTargetRegisters (assertion : AssertionA)
    (definedRegisters : List (Str × Nat)) (shadowedRegisters : List Str) :
    AssertionA :=
  let r := unfoldTargetsLoop definedRegisters shadowedRegisters
    assertion.targets
  if r.2 then { assertion with targets := r.1 } else assertion

/-- Declarative description of what happens to one assertion target:
shadowed names and undeclared names stay, a declared unshadowed register of
size `n` becomes its `n` indexed qubits in ascending order. -/
def unfoldExpandOne (definedRegisters : List (Str × Nat))
    (shadowedRegisters : List Str) (target : Str) : List Str :=
  if shadowedRegisters.contains target then [target]
  else
    match lookupAssoc definedRegisters target with
    | some n =>
      (List.range n).map (fun j => target ++ '[' :: (natToStr j ++ [']']))
    | none => [target]

theorem unfoldTargetsLoop_spec (definedRegisters : List (Str × Nat))
    (shadowedRegisters : List Str) (ts : List Str) :
    (unfoldTargetsLoop definedRegisters shadowedRegisters ts).1 =
      ts.flatMap (unfoldExpandOne definedRegisters shadowedRegisters) ∧
    ((unfoldTargetsLoop definedRegisters shadowedRegisters ts).2 = false →
      ts.flatMap (unfoldExpandOne definedRegisters shadowedRegisters) = ts) := by
  induction ts with
  | nil => simp [unfoldTargetsLoop]
  | cons t rest ih =>
    obtain ⟨ih1, ih2⟩ := ih
    by_cases hs : t ∈ shadowedRegisters
    · constructor
      · simp [unfoldTargetsLoop, unfoldExpandOne, hs, ih1]
      · intro hf
        simp only [unfoldTargetsLoop] at hf
        rw [if_pos (by simpa using hs)] at hf
        simp only at hf
        simp [unfoldExpandOne, hs, ih2 hf]
    · cases hlk : lookupAssoc definedRegisters t with
      | some n =>
        constructor
        · simp [unfoldTargetsLoop, unfoldExpandOne, hs, hlk, ih1]
        · intro hf
          simp only [unfoldTargetsLoop] at hf
          rw [if_neg (by simpa using hs)] at hf
          rw [hlk] at hf
          simp at hf
      | none =>
        constructor
        · simp [unfoldTargetsLoop, unfoldExpandOne, hs, hlk, ih1]
        · intro hf
          simp only [unfoldTargetsLoop] at hf
          rw [if_neg (by simpa using hs)] at hf
          rw [hlk] at hf
          simp only at hf
          simp [unfoldExpandOne, hs, hlk, ih2 hf]

/-- Claim C6: unfolding replaces, in place, every assertion target naming a
declared unshadowed register `r` of size `n` by `r[0] … r[n-1]` in ascending
index order, and keeps every other target unchanged in its original relative
position. -/
theorem claim_C6 (assertion : AssertionA)
    (definedRegisters : List (Str × Nat)) (shadowedRegisters : List Str) :
    (unfoldAssertionTargetRegisters assertion definedRegisters
        shadowedRegisters).targets =
      assertion.targets.flatMap
        (unfoldExpandOne definedRegisters shadowedRegisters) := by
  obtain ⟨h1, h2⟩ := unfoldTargetsLoop_spec definedRegisters shadowedRegisters
    assertion.targets
  unfold unfoldAssertionTargetRegisters
  cases hf : (unfoldTargetsLoop definedRegisters shadowedRegisters
      assertion.targets).2 with
  | true => simpa [hf] using h1
  | false => simp [hf, h2 hf]

/-! ## Comment stripping: `removeComments` -/

/-- In-place blanking of the character range `[a, b)` with spaces, the model
of `result.replace(a, b - a, std::string(b - a, ' '))` used by
`removeComments`. -/
def blankRange (s : Str) (a b : Nat) : Str :=
  s.take a ++ List.replicate (b - a) ' ' ++ s.drop b

/-- Fueled worker for `removeComments` of `CodePreprocessing.cpp`
(lines 255-270): the `for` loop increments `pos` once per iteration and runs
while `pos < result.size()`, so fuel `result.size()` covers every iteration
the source can perform. -/
def removeCommentsAux : Nat → Str → Nat → Str
  | 0, result, _ => result
  | fuel + 1, result, pos =>
    match findSubFrom result ['/', '/'] pos with
    | none => result
    | some nextComment =>
      removeCommentsAux fuel
        (blankRange result nextComment
          ((findCharFrom result '\n' nextComment).getD result.length))
        (pos + 1)

/-- `removeComments` of `CodePreprocessing.cpp` (lines 255-270): every `//`
comment up to (excluding) the next newline is replaced by spaces. -/
def removeComments (code : Str) : Str :=
  removeCommentsAux code.length code 0

/-- A `//` pair starts at position `j` of `s`. -/
def isSlashPairAt (s : Str) (j : Nat) : Bool :=
  decide (j + 1 < s.length) && (s.getD j ' ' == '/') && (s.getD (j + 1) ' ' == '/')

/-- No newline occurs at any position `k` with `j ≤ k ≤ i` of `s`. -/
def cleanSpan (s : Str) (j i : Nat) : Bool :=
  (List.range s.length).all
    (fun k => !(decide (j ≤ k) && decide (k ≤ i)) || (s.getD k ' ' != '\n'))

/-- Position `i` of `s` lies inside a line comment: some `//` pair starts at
`j ≤ i` with no intervening newline. -/
def inCommentSpan (s : Str) (i : Nat) : Bool :=
  (List.range s.length).any
    (fun j => decide (j ≤ i) && isSlashPairAt s j && cleanSpan s j i)

/-- The declarative result of comment stripping: each in-comment position
becomes a space, all other characters are unchanged. -/
def remSpec (s : Str) : Str :=
  (List.range s.length).map
    (fun i => if inCommentSpan s i then ' ' else s.getD i ' ')

theorem findSubAux_some_spec (pat : Str) :
    ∀ (s : Str) (i n : Nat), findSubAux pat s i = some n →
      i ≤ n ∧ pat.isPrefixOf (s.drop (n - i)) = true ∧
        ∀ d, d < n - i → pat.isPrefixOf (s.drop d) = false := by
  intro s
  induction s with
  | nil =>
    intro i n h
    rw [findSubAux] at h
    by_cases hp : pat.isPrefixOf ([] : Str) = true
    · rw [if_pos hp] at h
      injection h with h
      subst h
      refine ⟨le_refl _, by simpa [Nat.sub_self] using hp,
        fun d hd => absurd hd (by omega)⟩
    · rw [if_neg hp] at h
      exact absurd h (by simp)
  | cons c t ih =>
    intro i n h
    rw [findSubAux] at h
    by_cases hp : pat.isPrefixOf (c :: t) = true
    · rw [if_pos hp] at h
      injection h with h
      subst h
      refine ⟨le_refl _, by simpa [Nat.sub_self] using hp,
        fun d hd => absurd hd (by omega)⟩
    · rw [if_neg hp] at h
      obtain ⟨h1, h2, h3⟩ := ih (i + 1) n h
      refine ⟨by omega, ?_, ?_⟩
      · have : n - i = (n - (i + 1)) + 1 := by omega
        rw [this, List.drop_succ_cons]
        exact h2
      · intro d hd
        cases d with
        | zero =>
          rw [List.drop_zero]
          simp only [Bool.not_eq_true] at hp
          exact hp
        | succ e =>
          rw [List.drop_succ_cons]
          exact h3 e (by omega)

theorem findSubAux_none_spec (pat : Str) :
    ∀ (s : Str) (i : Nat), findSubAux pat s i = none →
      ∀ d, pat.isPrefixOf (s.drop d) = false := by
  intro s
  induction s with
  | nil =>
    intro i h d
    rw [findSubAux] at h
    by_cases hp : pat.isPrefixOf ([] : Str) = true
    · rw [if_pos hp] at h
      exact absurd h (by simp)
    · rw [List.drop_nil]
      simp only [Bool.not_eq_true] at hp
      exact hp
  | cons c t ih =>
    intro i h d
    rw [findSubAux] at h
    by_cases hp : pat.isPrefixOf (c :: t) = true
    · rw [if_pos hp] at h
      exact absurd h (by simp)
    · rw [if_neg hp] at h
      cases d with
      | zero =>
        rw [List.drop_zero]
        simp only [Bool.not_eq_true] at hp
        exact hp
      | succ e =>
        rw [List.drop_succ_cons]
        exact ih (i + 1) h e

theorem findSubFrom_some_spec {s pat : Str} {start n : Nat}
    (h : findSubFrom s pat start = some n) :
    start ≤ n ∧ pat.isPrefixOf (s.drop n) = true ∧
      ∀ m, start ≤ m → m < n → pat.isPrefixOf (s.drop m) = false := by
  unfold findSubFrom at h
  obtain ⟨h1, h2, h3⟩ := findSubAux_some_spec pat (s.drop start) start n h
  have hdd : ∀ k, (s.drop start).drop k = s.drop (start + k) := by
    intro k
    rw [List.drop_drop]
    try congr 1
    try omega
  refine ⟨h1, ?_, ?_⟩
  · rw [hdd] at h2
    have : start + (n - start) = n := by omega
    rwa [this] at h2
  · intro m hm1 hm2
    have := h3 (m - start) (by omega)
    rw [hdd] at this
    have heq : start + (m - start) = m := by omega
    rwa [heq] at this

theorem findSubFrom_none_spec {s pat : Str} {start : Nat}
    (h : findSubFrom s pat start = none) :
    ∀ m, start ≤ m → pat.isPrefixOf (s.drop m) = false := by
  intro m hm
  unfold findSubFrom at h
  have := findSubAux_none_spec pat (s.drop start) start h (m - start)
  rw [List.drop_drop] at this
  have heq : start + (m - start) = m := by omega
  rwa [heq] at this

theorem drop_cons_getD {s : Str} {k : Nat} {d : Char} {t : Str}
    (hd : s.drop k = d :: t) : s.getD k ' ' = d ∧ k < s.length := by
  have h0 : s[k]? = some d := by
    have : (s.drop k)[0]? = s[k + 0]? := List.getElem?_drop s k 0
    rw [hd] at this
    simpa using this.symm
  constructor
  · simp [List.getD_eq_getElem?_getD, h0]
  · by_contra hlt
    push_neg at hlt
    have : s.drop k = [] := List.drop_eq_nil_of_le hlt
    rw [this] at hd
    exact List.noConfusion hd

theorem single_isPrefixOf_drop (s : Str) (c : Char) (k : Nat) :
    ([c].isPrefixOf (s.drop k) = true) ↔ (k < s.length ∧ s.getD k ' ' = c) := by
  cases hd : s.drop k with
  | nil =>
    have hlen : s.length ≤ k := by
      have hl : (s.drop k).length = s.length - k := List.length_drop k s
      rw [hd] at hl
      simp at hl
      omega
    constructor
    · intro h
      simp [List.isPrefixOf] at h
    · intro ⟨h1, _⟩
      omega
  | cons d t =>
    obtain ⟨hgd, hklt⟩ := drop_cons_getD hd
    constructor
    · intro h
      have h' : d = c := by
        simp [List.isPrefixOf] at h
        exact h.symm
      exact ⟨hklt, by rw [hgd, h']⟩
    · intro ⟨_, h2⟩
      have h' : d = c := by rw [← hgd]; exact h2
      simp [List.isPrefixOf, h']

theorem pair_isPrefixOf_drop (s : Str) (j : Nat) :
    (['/', '/'].isPrefixOf (s.drop j) = true) ↔ isSlashPairAt s j = true := by
  cases hd : s.drop j with
  | nil =>
    have hlen : s.length ≤ j := by
      have : (s.drop j).length = s.length - j := List.length_drop j s
      rw [hd] at this
      simp at this
      omega
    constructor
    · intro h
      simp [List.isPrefixOf] at h
    · intro h
      unfold isSlashPairAt at h
      simp at h
      omega
  | cons d t =>
    obtain ⟨hgd, hklt⟩ := drop_cons_getD hd
    cases t with
    | nil =>
      have hlen : s.length - j = 1 := by
        have : (s.drop j).length = s.length - j := List.length_drop j s
        rw [hd] at this
        simpa using this.symm
      constructor
      · intro h
        simp [List.isPrefixOf] at h
      · intro h
        unfold isSlashPairAt at h
        simp at h
        omega
    | cons e u =>
      have hd2 : s.drop (j + 1) = e :: u := by
        have : s.drop (j + 1) = (s.drop j).drop 1 := by
          rw [List.drop_drop]
        rw [this, hd]
        simp
      obtain ⟨hge, hklt2⟩ := drop_cons_getD hd2
      unfold isSlashPairAt
      constructor
      · intro h
        have h' : d = '/' ∧ e = '/' := by
          simp [List.isPrefixOf] at h
          exact ⟨h.1.symm, h.2.symm⟩
        rw [hgd, hge, h'.1, h'.2]
        simp [hklt2]
      · intro h
        rw [hgd, hge] at h
        simp at h
        simp [List.isPrefixOf]
        exact ⟨h.1.2.symm, h.2.symm⟩

theorem blankRange_getElem? {s : Str} {a b : Nat} (h1 : a ≤ b)
    (h2 : b ≤ s.length) (j : Nat) :
    (blankRange s a b)[j]? = if a ≤ j ∧ j < b then some ' ' else s[j]? := by
  unfold blankRange
  rw [List.append_assoc]
  have hta : (s.take a).length = a := by
    rw [List.length_take]
    omega
  by_cases hja : j < a
  · rw [List.getElem?_append_left (by omega : j < (s.take a).length)]
    rw [List.getElem?_take_of_lt hja]
    rw [if_neg (by omega)]
  · push_neg at hja
    rw [List.getElem?_append_right (by omega : (s.take a).length ≤ j)]
    rw [hta]
    by_cases hjb : j < b
    · rw [List.getElem?_append_left
        (by rw [List.length_replicate]; omega : j - a < (List.replicate (b - a) ' ').length)]
      rw [List.getElem?_replicate_of_lt (by omega : j - a < b - a)]
      rw [if_pos ⟨hja, hjb⟩]
    · push_neg at hjb
      rw [List.getElem?_append_right
        (by rw [List.length_replicate]; omega : (List.replicate (b - a) ' ').length ≤ j - a)]
      rw [List.length_replicate, List.getElem?_drop]
      rw [if_neg (by omega)]
      congr 1
      omega

theorem blankRange_length {s : Str} {a b : Nat} (h1 : a ≤ b)
    (h2 : b ≤ s.length) : (blankRange s a b).length = s.length := by
  simp [blankRange]
  omega

theorem blankRange_getD {s : Str} {a b : Nat} (h1 : a ≤ b)
    (h2 : b ≤ s.length) (j : Nat) :
    (blankRange s a b).getD j ' ' =
      if a ≤ j ∧ j < b then ' ' else s.getD j ' ' := by
  rw [List.getD_eq_getElem?_getD, blankRange_getElem? h1 h2,
    List.getD_eq_getElem?_getD]
  by_cases h : a ≤ j ∧ j < b
  · rw [if_pos h, if_pos h]
    rfl
  · rw [if_neg h, if_neg h]

theorem cleanSpan_iff (s : Str) (j i : Nat) :
    cleanSpan s j i = true ↔
      ∀ k, j ≤ k → k ≤ i → k < s.length → s.getD k ' ' ≠ '\n' := by
  unfold cleanSpan
  rw [List.all_eq_true]
  constructor
  · intro h k h1 h2 h3
    have := h k (List.mem_range.mpr h3)
    simp [h1, h2] at this
    rw [List.getD_eq_getElem?_getD]
    exact this
  · intro h k hk
    by_cases h1 : j ≤ k
    · by_cases h2 : k ≤ i
      · simp [h1, h2]
        have hx := h k h1 h2 (List.mem_range.mp hk)
        rw [List.getD_eq_getElem?_getD] at hx
        exact hx
      · simp [h2]
    · simp [h1]

theorem inCommentSpan_iff (s : Str) (i : Nat) :
    inCommentSpan s i = true ↔
      ∃ j, j ≤ i ∧ isSlashPairAt s j = true ∧ cleanSpan s j i = true := by
  unfold inCommentSpan
  rw [List.any_eq_true]
  constructor
  · rintro ⟨j, hj, h⟩
    simp only [Bool.and_eq_true, decide_eq_true_eq] at h
    exact ⟨j, h.1.1, h.1.2, h.2⟩
  · rintro ⟨j, h1, h2, h3⟩
    have hjlen : j < s.length := by
      unfold isSlashPairAt at h2
      simp only [Bool.and_eq_true, decide_eq_true_eq] at h2
      omega
    refine ⟨j, List.mem_range.mpr hjlen, ?_⟩
    simp [h1, h2, h3]

theorem remSpec_length (s : Str) : (remSpec s).length = s.length := by
  simp [remSpec]

theorem remSpec_getElem? (s : Str) (i : Nat) (h : i < s.length) :
    (remSpec s)[i]? =
      some (if inCommentSpan s i then ' ' else s.getD i ' ') := by
  unfold remSpec
  rw [List.getElem?_map, List.getElem?_range h]
  rfl

theorem remSpec_getD (s : Str) (i : Nat) (h : i < s.length) :
    (remSpec s).getD i ' ' =
      if inCommentSpan s i then ' ' else s.getD i ' ' := by
  rw [List.getD_eq_getElem?_getD, remSpec_getElem? s i h]
  rfl

theorem noPairs_inCommentSpan {s : Str}
    (h : ∀ j, isSlashPairAt s j = false) (i : Nat) :
    inCommentSpan s i = false := by
  by_contra hc
  rw [Bool.not_eq_false] at hc
  obtain ⟨j, _, h2, _⟩ := (inCommentSpan_iff s i).mp hc
  rw [h j] at h2
  exact Bool.noConfusion h2

theorem noPairs_remSpec {s : Str}
    (h : ∀ j, isSlashPairAt s j = false) : remSpec s = s := by
  apply List.ext_getElem?
  intro n
  by_cases hn : n < s.length
  · rw [remSpec_getElem? s n hn, noPairs_inCommentSpan h n]
    simp [List.getD_eq_getElem?_getD, List.getElem?_eq_getElem hn]
  · push_neg at hn
    have h1 : (remSpec s)[n]? = none := by
      rw [List.getElem?_eq_none_iff]
      rw [remSpec_length]
      exact hn
    have h2 : s[n]? = none := by
      rw [List.getElem?_eq_none_iff]
      exact hn
    rw [h1, h2]

theorem pair_blank_forward {s : Str} {nc ce j : Nat} (h1 : nc ≤ ce)
    (h2 : ce ≤ s.length)
    (hp : isSlashPairAt (blankRange s nc ce) j = true) :
    isSlashPairAt s j = true ∧ ¬(nc ≤ j ∧ j < ce) ∧
      ¬(nc ≤ j + 1 ∧ j + 1 < ce) := by
  unfold isSlashPairAt at hp
  simp only [Bool.and_eq_true, decide_eq_true_eq, beq_iff_eq] at hp
  obtain ⟨⟨hlen, hc1⟩, hc2⟩ := hp
  rw [blankRange_length h1 h2] at hlen
  rw [blankRange_getD h1 h2] at hc1 hc2
  have hout1 : ¬(nc ≤ j ∧ j < ce) := by
    intro hin
    rw [if_pos hin] at hc1
    exact absurd hc1 (by decide)
  have hout2 : ¬(nc ≤ j + 1 ∧ j + 1 < ce) := by
    intro hin
    rw [if_pos hin] at hc2
    exact absurd hc2 (by decide)
  rw [if_neg hout1] at hc1
  rw [if_neg hout2] at hc2
  refine ⟨?_, hout1, hout2⟩
  unfold isSlashPairAt
  simp only [Bool.and_eq_true, decide_eq_true_eq, beq_iff_eq]
  exact ⟨⟨hlen, hc1⟩, hc2⟩

theorem pair_blank_backward {s : Str} {nc ce j : Nat} (h1 : nc ≤ ce)
    (h2 : ce ≤ s.length) (hp : isSlashPairAt s j = true)
    (hout : j + 1 < nc ∨ ce ≤ j) :
    isSlashPairAt (blankRange s nc ce) j = true := by
  unfold isSlashPairAt at hp
  simp only [Bool.and_eq_true, decide_eq_true_eq, beq_iff_eq] at hp
  obtain ⟨⟨hlen, hc1⟩, hc2⟩ := hp
  unfold isSlashPairAt
  simp only [Bool.and_eq_true, decide_eq_true_eq, beq_iff_eq]
  rw [blankRange_length h1 h2, blankRange_getD h1 h2, blankRange_getD h1 h2]
  rw [if_neg (by omega), if_neg (by omega)]
  exact ⟨⟨hlen, hc1⟩, hc2⟩

theorem cleanSpan_blank_iff {s : Str} {nc ce : Nat} (h1 : nc ≤ ce)
    (h2 : ce ≤ s.length)
    (hnl : ∀ k, nc ≤ k → k < ce → s.getD k ' ' ≠ '\n') (j i : Nat) :
    cleanSpan (blankRange s nc ce) j i = true ↔ cleanSpan s j i = true := by
  rw [cleanSpan_iff, cleanSpan_iff]
  have hval : ∀ k, k < s.length →
      ((blankRange s nc ce).getD k ' ' = '\n' ↔ s.getD k ' ' = '\n') := by
    intro k _
    rw [blankRange_getD h1 h2]
    by_cases hin : nc ≤ k ∧ k < ce
    · rw [if_pos hin]
      constructor
      · intro h
        exact absurd h (by decide)
      · intro h
        exact absurd h (hnl k hin.1 hin.2)
    · rw [if_neg hin]
  constructor
  · intro h k hk1 hk2 hk3
    intro hc
    exact h k hk1 hk2 (by rwa [blankRange_length h1 h2])
      ((hval k hk3).mpr hc)
  · intro h k hk1 hk2 hk3
    rw [blankRange_length h1 h2] at hk3
    intro hc
    exact h k hk1 hk2 hk3 ((hval k hk3).mp hc)

/-- Blanking the first comment span leaves the declarative comment-stripped
text unchanged. -/
theorem remSpec_blank {s : Str} {nc ce : Nat}
    (hpair : isSlashPairAt s nc = true)
    (hmin : ∀ j, j < nc → isSlashPairAt s j = false)
    (hlt : nc < ce) (hle : ce ≤ s.length)
    (hnl : ∀ k, nc ≤ k → k < ce → s.getD k ' ' ≠ '\n')
    (hceNl : ce < s.length → s.getD ce ' ' = '\n') :
    remSpec (blankRange s nc ce) = remSpec s := by
  have h1 : nc ≤ ce := le_of_lt hlt
  have hlenB : (blankRange s nc ce).length = s.length := blankRange_length h1 hle
  apply List.ext_getElem?
  intro n
  by_cases hn : n < s.length
  · rw [remSpec_getElem? _ n (by rwa [hlenB]), remSpec_getElem? s n hn]
    congr 1
    by_cases hn1 : n < nc
    · have hsF : inCommentSpan s n = false := by
        by_contra hc
        rw [Bool.not_eq_false] at hc
        obtain ⟨j, hj1, hj2, _⟩ := (inCommentSpan_iff s n).mp hc
        rw [hmin j (by omega)] at hj2
        exact Bool.noConfusion hj2
      have hbF : inCommentSpan (blankRange s nc ce) n = false := by
        by_contra hc
        rw [Bool.not_eq_false] at hc
        obtain ⟨j, hj1, hj2, _⟩ := (inCommentSpan_iff _ n).mp hc
        obtain ⟨hp, _, _⟩ := pair_blank_forward h1 hle hj2
        rw [hmin j (by omega)] at hp
        exact Bool.noConfusion hp
      rw [hsF, hbF]
      simp only [Bool.false_eq_true, if_false]
      rw [blankRange_getD h1 hle, if_neg (by omega)]
    · by_cases hn2 : n < ce
      · have hsT : inCommentSpan s n = true := by
          rw [inCommentSpan_iff]
          refine ⟨nc, by omega, hpair, ?_⟩
          rw [cleanSpan_iff]
          intro k hk1 hk2 _
          exact hnl k hk1 (by omega)
        rw [hsT]
        simp only [if_true]
        by_cases hbc : inCommentSpan (blankRange s nc ce) n = true
        · rw [hbc]
          simp
        · rw [Bool.not_eq_true] at hbc
          rw [hbc]
          simp only [Bool.false_eq_true, if_false]
          rw [blankRange_getD h1 hle, if_pos (by omega)]
      · push_neg at hn1 hn2
        have hiff : inCommentSpan (blankRange s nc ce) n = true ↔
            inCommentSpan s n = true := by
          rw [inCommentSpan_iff, inCommentSpan_iff]
          constructor
          · rintro ⟨j, hj1, hj2, hj3⟩
            obtain ⟨hp, _, _⟩ := pair_blank_forward h1 hle hj2
            exact ⟨j, hj1, hp, (cleanSpan_blank_iff h1 hle hnl j n).mp hj3⟩
          · rintro ⟨j, hj1, hj2, hj3⟩
            have hjnc : nc ≤ j := by
              by_contra hjc
              push_neg at hjc
              rw [hmin j hjc] at hj2
              exact Bool.noConfusion hj2
            have hjce : ce ≤ j := by
              by_contra hjc
              push_neg at hjc
              have hceLen : ce < s.length := by omega
              have := (cleanSpan_iff s j n).mp hj3 ce (by omega) (by omega)
                hceLen
              exact this (hceNl hceLen)
            refine ⟨j, hj1, pair_blank_backward h1 hle hj2 (Or.inr hjce), ?_⟩
            exact (cleanSpan_blank_iff h1 hle hnl j n).mpr hj3
        have hvals : (blankRange s nc ce).getD n ' ' = s.getD n ' ' := by
          rw [blankRange_getD h1 hle, if_neg (by omega)]
        by_cases hic : inCommentSpan s n = true
        · rw [hic, hiff.mpr hic]
          simp
        · rw [Bool.not_eq_true] at hic
          have hbc : inCommentSpan (blankRange s nc ce) n = false := by
            by_contra hcc
            rw [Bool.not_eq_false] at hcc
            rw [hiff.mp hcc] at hic
            exact Bool.noConfusion hic
          rw [hic, hbc]
          simp only [Bool.false_eq_true, if_false]
          exact hvals
  · push_neg at hn
    have hA : (remSpec (blankRange s nc ce))[n]? = none := by
      rw [List.getElem?_eq_none_iff, remSpec_length, hlenB]
      exact hn
    have hB : (remSpec s)[n]? = none := by
      rw [List.getElem?_eq_none_iff, remSpec_length]
      exact hn
    rw [hA, hB]

/-- The loop of `removeComments` computes the declarative comment-stripped
text, given that no `//` pair starts before the current scan position and
enough fuel remains. -/
theorem removeCommentsAux_spec : ∀ (fuel : Nat) (s : Str) (pos : Nat),
    (∀ j, j < pos → isSlashPairAt s j = false) →
    s.length ≤ fuel + pos →
    removeCommentsAux fuel s pos = remSpec s := by
  intro fuel
  induction fuel with
  | zero =>
    intro s pos hclean hfuel
    have hall : ∀ j, isSlashPairAt s j = false := by
      intro j
      by_cases hj : j < pos
      · exact hclean j hj
      · push_neg at hj
        have hj2 : ¬ (j + 1 < s.length) := by omega
        unfold isSlashPairAt
        rw [decide_eq_false hj2]
        simp
    rw [removeCommentsAux]
    exact (noPairs_remSpec hall).symm
  | succ fuel ih =>
    intro s pos hclean hfuel
    rw [removeCommentsAux]
    cases hf : findSubFrom s ['/', '/'] pos with
    | none =>
      have hall : ∀ j, isSlashPairAt s j = false := by
        intro j
        by_cases hj : j < pos
        · exact hclean j hj
        · push_neg at hj
          have := findSubFrom_none_spec hf j hj
          by_contra hc
          rw [Bool.not_eq_false] at hc
          rw [(pair_isPrefixOf_drop s j).mpr hc] at this
          exact Bool.noConfusion this
      exact (noPairs_remSpec hall).symm
    | some nc =>
      obtain ⟨hpos, hpre, hminF⟩ := findSubFrom_some_spec hf
      have hpair : isSlashPairAt s nc = true := (pair_isPrefixOf_drop s nc).mp hpre
      have hpairData : nc + 1 < s.length ∧ s.getD nc ' ' = '/' := by
        unfold isSlashPairAt at hpair
        simp only [Bool.and_eq_true, decide_eq_true_eq, beq_iff_eq] at hpair
        exact ⟨hpair.1.1, hpair.1.2⟩
      have hmin : ∀ j, j < nc → isSlashPairAt s j = false := by
        intro j hj
        by_cases hjp : j < pos
        · exact hclean j hjp
        · push_neg at hjp
          have := hminF j hjp hj
          by_contra hc
          rw [Bool.not_eq_false] at hc
          rw [(pair_isPrefixOf_drop s j).mpr hc] at this
          exact Bool.noConfusion this
      have hfacts : nc < ((findCharFrom s '\n' nc).getD s.length) ∧
          ((findCharFrom s '\n' nc).getD s.length) ≤ s.length ∧
          (∀ k, nc ≤ k → k < ((findCharFrom s '\n' nc).getD s.length) →
            s.getD k ' ' ≠ '\n') ∧
          (((findCharFrom s '\n' nc).getD s.length) < s.length →
            s.getD ((findCharFrom s '\n' nc).getD s.length) ' ' = '\n') := by
        cases hfc : findCharFrom s '\n' nc with
        | none =>
          simp only [Option.getD_none]
          unfold findCharFrom at hfc
          have hnone := findSubFrom_none_spec hfc
          refine ⟨by omega, le_refl _, ?_, by omega⟩
          intro k hk1 hk2 hkc
          have := hnone k hk1
          rw [(single_isPrefixOf_drop s '\n' k).mpr ⟨hk2, hkc⟩] at this
          exact Bool.noConfusion this
        | some ceV =>
          simp only [Option.getD_some]
          unfold findCharFrom at hfc
          obtain ⟨hle1, hpre1, hmin1⟩ := findSubFrom_some_spec hfc
          obtain ⟨hceLt, hceNl⟩ := (single_isPrefixOf_drop s '\n' ceV).mp hpre1
          have hncNe : nc ≠ ceV := by
            intro hEq
            rw [hEq] at hpairData
            rw [hceNl] at hpairData
            exact absurd hpairData.2 (by decide)
          refine ⟨by omega, by omega, ?_, fun _ => hceNl⟩
          intro k hk1 hk2 hkc
          have := hmin1 k hk1 hk2
          rw [(single_isPrefixOf_drop s '\n' k).mpr ⟨by omega, hkc⟩] at this
          exact Bool.noConfusion this
      obtain ⟨hlt, hle, hnl, hceNl⟩ := hfacts
      have hclean' : ∀ j, j < pos + 1 →
          isSlashPairAt (blankRange s nc
            ((findCharFrom s '\n' nc).getD s.length)) j = false := by
        intro j hj
        by_contra hc
        rw [Bool.not_eq_false] at hc
        obtain ⟨hp, hout1, _⟩ := pair_blank_forward (le_of_lt hlt) hle hc
        by_cases hjnc : j < nc
        · rw [hmin j hjnc] at hp
          exact Bool.noConfusion hp
        · push_neg at hjnc
          have hjEq : j = nc := by omega
          exact hout1 (by omega)
      have hfuel' : (blankRange s nc
          ((findCharFrom s '\n' nc).getD s.length)).length ≤
            fuel + (pos + 1) := by
        rw [blankRange_length (le_of_lt hlt) hle]
        omega
      show removeCommentsAux fuel
        (blankRange s nc ((findCharFrom s '\n' nc).getD s.length)) (pos + 1) =
          remSpec s
      rw [ih _ (pos + 1) hclean' hfuel']
      exact remSpec_blank hpair hmin hlt hle hnl hceNl

/-- Claim C7: `removeComments` returns a string of exactly the same length in
which every character inside a `//`-to-newline comment span is replaced by a
space and every character outside such spans is unchanged. -/
theorem claim_C7 (code : Str) :
    (removeComments code).length = code.length ∧
    ∀ i, i < code.length →
      (removeComments code).getD i ' ' =
        (if inCommentSpan code i then ' ' else code.getD i ' ') := by
  have h : removeComments code = remSpec code :=
    removeCommentsAux_spec code.length code 0 (fun j hj => absurd hj (by omega))
      (by omega)
  constructor
  · rw [h, remSpec_length]
  · intro i hi
    rw [h, remSpec_getD code i hi]

/-- Witness for claim C7 at a concrete input: position 4 of `ab//cd\nef` lies
inside the comment, so it is blanked. -/
theorem claim_C7_witness :
    4 < ("ab//cd\nef".data).length ∧
    (removeComments "ab//cd\nef".data).getD 4 ' ' =
      (if inCommentSpan "ab//cd\nef".data 4 then ' '
       else ("ab//cd\nef".data).getD 4 ' ') := by
  exact ⟨by decide, (claim_C7 "ab//cd\nef".data).2 4 (by decide)⟩

/-! ## Instruction classification and signature parsing -/

/-- `isFunctionDefinition` of `CodePreprocessing.cpp` (lines 368-370). -/
def isFunctionDefinition (line : Str) : Bool :=
  "gate ".data.isPrefixOf (trim line)

/-- `isReset` of `CodePreprocessing.cpp` (lines 372-374). -/
def isReset (line : Str) : Bool :=
  "reset ".data.isPrefixOf (trim line)

/-- `isBarrier` of `CodePreprocessing.cpp` (lines 376-379). -/
def isBarrier (line : Str) : Bool :=
  "barrier ".data.isPrefixOf (trim line) ||
    "barrier;".data.isPrefixOf (trim line)

/-- `isClassicControlledGate` of `CodePreprocessing.cpp` (lines 381-385). -/
def isClassicControlledGate (line : Str) : Bool :=
  "if".data.isPrefixOf (trim line) && line.contains '(' && line.contains ')'

/-- `isMeasurement` of `CodePreprocessing.cpp` (lines 410-412). -/
def isMeasurement (line : Str) : Bool :=
  (findSubFrom line "->".data 0).isSome

/-- `isVariableDeclaration` of `CodePreprocessing.cpp` (lines 414-416). -/
def isVariableDeclaration (line : Str) : Bool :=
  "creg ".data.isPrefixOf (trim line) || "qreg ".data.isPrefixOf (trim line)

/-- `ClassicControlledGate` of the header: condition text and the operations
of the body. -/
structure ClassicControlledGate where
  condition : Str
  operations : List Str
  deriving DecidableEq, Inhabited, Repr

/-- The character scan of `parseClassicControlledGate` (lines 391-403):
collect condition characters while the parenthesis level is nonzero after
processing each character; the returned index is where the scan stopped
(the position of the closing parenthesis, or the string length when the scan
ran off the end). -/
def pccgLoop : Str → Int → Str → Nat → (Str × Nat)
  | [], _, cond, i => (cond, i)
  | c :: rest, ob, cond, i =>
    let ob' := if c = '(' then ob + 1 else if c = ')' then ob - 1 else ob
    if ob' = 0 then (cond, i)
    else pccgLoop rest ob' (cond ++ [c]) (i + 1)

/-- `parseClassicControlledGate` of `CodePreprocessing.cpp` (lines 387-408).
When the scan never reaches parenthesis level zero the source calls
`substr(i + 1)` past the end and throws `std::out_of_range`; the model
returns the empty rest instead (no claim depends on that degenerate case). -/
def parseClassicControlledGate (code : Str) : ClassicControlledGate :=
  let codeSanitized := trim (replaceString code "if".data [])
  let r := pccgLoop codeSanitized 0 [] 0
  let rest := codeSanitized.drop (r.2 + 1)
  let rest2 := replaceString (replaceString rest ['}'] []) ['{'] []
  { condition := r.1, operations := splitStringDrop rest2 [';'] }

/-- `FunctionDefinition` of the header: gate name and formal parameters. -/
structure FunctionDefinition where
  name : Str
  parameters : List Str
  deriving DecidableEq, Inhabited, Repr

/-- The name-finding loop of `parseFunctionDefinition` (lines 281-288): the
first token that is neither `gate` nor empty is the gate name; the returned
index is one past its position (the source increments `index` before the
check). -/
def pfdNameLoop : List Str → Nat → (Str × Nat)
  | [], idx => ([], idx)
  | part :: rest, idx =>
    if part ≠ "gate".data ∧ part ≠ [] then (part, idx + 1)
    else pfdNameLoop rest (idx + 1)

/-- `parseFunctionDefinition` of `CodePreprocessing.cpp` (lines 277-297). -/
def parseFunctionDefinition (signature : Str) : FunctionDefinition :=
  let parts := splitStringKeep
    (replaceString (replaceString signature "\n".data " ".data) "\t".data
      " ".data) [' ']
  let r := pfdNameLoop parts 0
  let parameterParts := (parts.drop r.2).foldl (fun acc p => acc ++ p) []
  { name := r.1,
    parameters := splitStringKeep (removeWhitespace parameterParts) [','] }

/-- `sweepFunctionNames` of `CodePreprocessing.cpp` (lines 304-315). -/
def sweepFunctionNames (code : Str) : List Str :=
  ((splitStringKeep code [';', '}']).filter
    (fun ins => isFunctionDefinition ins)).map
    (fun ins => (parseFunctionDefinition ins).name)

/-- Fueled worker for `sweepBlocks` of `CodePreprocessing.cpp`
(lines 220-247).  One fuel unit per loop iteration; a replacement resets the
scan position to just after the replacement start, exactly as
`pos = start; pos++` does in the source.  The placeholder can be longer than
the block it replaces, so the total iteration count is bounded by a small
multiple of the input length; the fuel chosen by `sweepBlocks` covers it. -/
def sweepBlocksF : Nat → Str → Int → Nat → Nat → List (Str × Str) →
    (Str × List (Str × Str))
  | 0, result, _, _, _, blocks => (result, blocks)
  | fuel + 1, result, level, start, pos, blocks =>
    if pos < result.length then
      let c := result.getD pos ' '
      if c = '{' then
        sweepBlocksF fuel result (level + 1)
          (if level = 0 then pos else start) (pos + 1) blocks
      else if c = '}' then
        if level - 1 = 0 then
          let block := substrC result (start + 1) (pos - 1 - start)
          let blockName := "$__block".data ++ natToStr blocks.length ++ "$;".data
          let result' := result.take start ++ blockName ++ result.drop (pos + 1)
          sweepBlocksF fuel result' (level - 1) start (start + 1)
            (insertAssoc blocks blockName block)
        else sweepBlocksF fuel result (level - 1) start (pos + 1) blocks
      else sweepBlocksF fuel result level start (pos + 1) blocks
    else (result, blocks)

/-- `sweepBlocks` of `CodePreprocessing.cpp` (lines 220-247): replace each
top-level braced block by a fresh `$__blockN$;` placeholder and record the
block bodies. -/
def sweepBlocks (code : Str) : (Str × List (Str × Str)) :=
  sweepBlocksF (16 * code.length + 16) code 0 0 0 []

/-! ## Assertion parsing (spec-modelled) -/

/-- Modelled from the spec: `isAssertion` of `AssertionParsing.cpp` (not
under src/): an assertion statement starts with `assert-` (§4.2, §6). -/
def isAssertion (line : Str) : Bool :=
  "assert-".data.isPrefixOf (trim line)

/-- Modelled from the spec: `parseAssertion` of `AssertionParsing.cpp` (not
under src/), following the grammar of §4.2: `"assert-" Kind Targets [Body]`,
targets separated by commas, whitespace-insensitive; the body is the braced
block attached to the instruction. -/
def parseAssertion (line blockCode : Str) : Except PError AssertionA :=
  let t := trim line
  if ¬ "assert-".data.isPrefixOf t then
    .error (mkPError1 "Invalid assertion".data)
  else
    let rest := t.drop 7
    let kindTok := rest.takeWhile (fun c => c ≠ ' ')
    let afterKind := rest.dropWhile (fun c => c ≠ ' ')
    let targetsText := removeWhitespace (replaceString afterKind ";".data [])
    let targets := splitStringKeep targetsText [',']
    match (if kindTok = "ent".data then some AssertKind.ent
           else if kindTok = "sup".data then some AssertKind.sup
           else if kindTok = "eq".data then some AssertKind.eqk
           else if kindTok = "ineq".data then some AssertKind.ineq
           else none) with
    | none => .error (mkPError1 "Unknown assertion kind".data)
    | some k => .ok { kind := k, targets := targets, body := blockCode }

/-- Modelled from the spec: the minimal number of targets per assertion kind
(§4.2: entanglement requires at least two distinct targets). -/
def minTargetsFor : AssertKind → Nat
  | AssertKind.ent => 2
  | _ => 1

/-- Modelled from the spec: `Assertion::validate` of `AssertionParsing.cpp`
(not under src/), §4.2: reject fewer targets than the kind requires and
duplicate target names. -/
def validateAssertion (a : AssertionA) : Option PError :=
  if a.targets.length < minTargetsFor a.kind then
    some (mkPError1 "Too few targets".data)
  else if ¬ a.targets.Nodup then
    some (mkPError1 "Duplicate targets".data)
  else none

/-! ## The instruction record and `parseParameters` -/

/-- `Block` of the header. -/
structure Block where
  valid : Bool
  code : Str
  deriving DecidableEq, Inhabited, Repr

/-- The `Instruction` record of `CodePreprocessing.hpp`, restricted to the
fields the preprocessing pipeline fills in (`dataDependencies` is omitted,
with the data-dependency pass; no claim refers to it). -/
structure Instruction where
  lineNumber : Nat
  code : Str
  assertion : Option AssertionA
  targets : List Str
  originalCodeStartPosition : Nat
  originalCodeEndPosition : Nat
  successorIndex : Nat
  isFunctionCall : Bool
  calledFunction : Str
  inFunctionDefinition : Bool
  isFunctionDefinition : Bool
  block : Block
  childInstructions : List Nat
  callSubstitution : List (Str × Str)
  deriving DecidableEq, Inhabited, Repr

/-- The token-skipping loop of `parseParameters` (lines 444-455): count
consumed tokens until the first nonempty token outside parentheses
(`openBrackets` is a `size_t` in the source; only its zero test is observed,
which coincides with the signed model). -/
def ppIndexLoop : List Str → Int → Nat → Nat
  | [], _, idx => idx
  | part :: rest, ob, idx =>
    let ob' := ob + (part.count '(' : Int) - (part.count ')' : Int)
    if part ≠ [] ∧ ob' = 0 then idx + 1
    else ppIndexLoop rest ob' (idx + 1)

/-- Fueled worker for `parseParameters` of `CodePreprocessing.cpp`
(lines 418-469).  Recursion only happens on strictly shorter strings
(the text before `->` for measurements, the body operations for
classic-controlled gates), so fuel `length + 2` suffices. -/
def parseParametersF : Nat → Str → List Str
  | 0, _ => []
  | fuel + 1, instruction =>
    if isFunctionDefinition instruction then
      (parseFunctionDefinition instruction).parameters
    else if isMeasurement instruction then
      parseParametersF fuel ((splitStringKeep instruction ['-']).headD [])
    else if isClassicControlledGate instruction then
      (parseClassicControlledGate instruction).operations.foldl
        (fun acc op => acc ++ parseParametersF fuel op) []
    else
      let parts := splitStringKeep
        (replaceString
          (replaceString (replaceString instruction ";".data " ".data)
            "\n".data " ".data) "\t".data " ".data) [' ']
      let index := ppIndexLoop parts 0 0
      let parameterParts := (parts.drop index).foldl (fun acc p => acc ++ p) []
      let parameters := splitStringKeep (removeWhitespace parameterParts) [',']
      if parameters = [[]] then [] else parameters

/-- `parseParameters` of `CodePreprocessing.cpp` (lines 418-469). -/
def parseParameters (instruction : Str) : List Str :=
  parseParametersF (instruction.length + 2) instruction

/-! ## The `preprocessCode` machine -/

/-- The register-declaration handling of the main loop of `preprocessCode`
(lines 546-564): strip `creg` / `qreg`, split on brackets, reject an empty
name or a non-digit size (the `stoulBound` branch models the `std::stoul`
call of line 558 throwing `std::out_of_range`, caught and rethrown on
lines 559-562), then `std::map::insert` the register. -/
def processVariableDeclaration (origCode : Str) (trueStart : Nat)
    (trimmedLine : Str) (regs : List (Str × Nat)) :
    Except PError (List (Str × Nat)) :=
  let declaration := removeWhitespace
    (replaceString (replaceString trimmedLine "creg".data []) "qreg".data [])
  let parts := splitStringKeep declaration ['[', ']']
  let name := parts.headD []
  let sizeText := if parts.length > 1 then parts.getD 1 [] else []
  if name = [] ∨ ¬ isDigits sizeText then
    .error (mkPError1
      (formatParseError origCode trueStart (invalidRegisterDetail trimmedLine)))
  else if stoulBound ≤ natOfDigits sizeText then
    .error (mkPError1
      (formatParseError origCode trueStart (invalidRegisterDetail trimmedLine)))
  else
    .ok (insertAssoc regs name (natOfDigits sizeText))

/-- The per-fragment data computed at the top of each iteration of the main
loop of `preprocessCode` (lines 509-544): the fragment text, its trimmed
form and tokens, the assertion flag, block extraction (with the `size_t`
wrap-and-clamp behaviour of the source for a missing closing `$`),
classic-controlled body inlining, targets, and the true start and end
offsets into the original code. -/
structure FragInfo where
  line : Str
  trimmedLine : Str
  tokens : List Str
  isAssert : Bool
  block : Block
  targets : List Str
  trueStart : Nat
  trueEnd : Nat
  blocksOffset : Int
  deriving Inhabited

/-- Compute the `FragInfo` for the fragment `rest.take (e + 1)` of the
block-elided text, where `e` is the relative position of the terminating
semicolon (fragment layout per lines 509-544 of `CodePreprocessing.cpp`). -/
def fragmentData (rest : Str) (pos : Nat) (blocksOffset : Int)
    (blocks : List (Str × Str)) (e : Nat) : FragInfo :=
  let line0 := rest.take (e + 1)
  let trimmedLine := trim line0
  let tokens := splitStringKeep trimmedLine [' ']
  let isAssert := isAssertion line0
  let trueStartBase : Nat :=
    match findFirstNotOfFrom rest [' ', '\t', '\r', '\n'] 0 with
    | some r => if r < e then pos + r else pos
    | none => pos
  let trueStart : Nat := ((trueStartBase : Int) + blocksOffset).toNat
  match findSubFrom line0 "$__block".data 0 with
  | none =>
    let targets := parseParameters line0
    { line := line0, trimmedLine := trimmedLine, tokens := tokens,
      isAssert := isAssert, block := { valid := false, code := [] },
      targets := targets, trueStart := trueStart,
      trueEnd := (((pos + e : Nat) : Int) + blocksOffset).toNat,
      blocksOffset := blocksOffset }
  | some bp =>
    let endPos : Nat := ((findCharFrom line0 '$' (bp + 1)).map
      (fun p => p + 1)).getD 0
    let cnt : Nat :=
      if bp ≤ endPos then endPos + 1 - bp else line0.length - bp
    let blockName := substrC line0 bp cnt
    let blockContent := (lookupAssoc blocks blockName).getD []
    let off' := blocksOffset + (blockContent.length : Int) + 2 -
      (blockName.length : Int)
    let line1 := line0.take bp ++ line0.drop (bp + cnt)
    if isClassicControlledGate line1 then
      let line2 := line1 ++ " \x7b ".data ++ blockContent ++ " \x7d".data
      { line := line2, trimmedLine := trimmedLine, tokens := tokens,
        isAssert := isAssert, block := { valid := false, code := [] },
        targets := parseParameters line2, trueStart := trueStart,
        trueEnd := (((pos + e : Nat) : Int) + off').toNat,
        blocksOffset := off' }
    else
      { line := line1, trimmedLine := trimmedLine, tokens := tokens,
        isAssert := isAssert, block := { valid := true, code := blockContent },
        targets := parseParameters line1, trueStart := trueStart,
        trueEnd := (((pos + e : Nat) : Int) + off').toNat,
        blocksOffset := off' }

/-! ### Evaluation-order helpers

Continuation-passing identities that rebuild a value in constructor normal
form before the continuation consumes it.  They are semantically the
identity (`force… v k = k v`, proved below) and only steer kernel reduction
when theorems evaluate the model on concrete programs; without them the lazy
kernel evaluation of the loop state would recompute shared thunks
exponentially often. -/

/-- CPS identity on `Bool`. -/
def forceBool {β : Type} : Bool → (Bool → β) → β
  | true, k => k true
  | false, k => k false

/-- CPS identity on `Nat` (unary; only ever applied to small values). -/
def forceNat {β : Type} : Nat → (Nat → β) → β
  | 0, k => k 0
  | n + 1, k => forceNat n (fun m => k (m + 1))

/-- CPS identity on `Int`. -/
def forceInt {β : Type} : Int → (Int → β) → β
  | .ofNat n, k => forceNat n (fun m => k (.ofNat m))
  | .negSucc n, k => forceNat n (fun m => k (.negSucc m))

/-- CPS identity on lists, given one for the elements. -/
def forceList {α β : Type} (f : α → (α → β) → β) : List α → (List α → β) → β
  | [], k => k []
  | a :: t, k => f a (fun a' => forceList f t (fun t' => k (a' :: t')))

/-- CPS identity on `Char` (characters are atomic enough). -/
def forceChar {β : Type} : Char → (Char → β) → β := fun c k => k c

/-- CPS identity on strings. -/
def forceStr {β : Type} : Str → (Str → β) → β := forceList forceChar

/-- CPS identity on string lists. -/
def forceStrList {β : Type} : List Str → (List Str → β) → β :=
  forceList forceStr

/-- CPS identity on string-keyed `Nat` bindings. -/
def forcePairSN {β : Type} : (Str × Nat) → ((Str × Nat) → β) → β
  | (a, b), k => forceStr a (fun a' => forceNat b (fun b' => k (a', b')))

/-- CPS identity on string pairs. -/
def forcePairSS {β : Type} : (Str × Str) → ((Str × Str) → β) → β
  | (a, b), k => forceStr a (fun a' => forceStr b (fun b' => k (a', b')))

/-- CPS identity on register tables / `functionFirstLine` maps. -/
def forceAssocSN {β : Type} :
    List (Str × Nat) → (List (Str × Nat) → β) → β :=
  forceList forcePairSN

/-- CPS identity on assertion kinds. -/
def forceKind {β : Type} : AssertKind → (AssertKind → β) → β
  | AssertKind.ent, k => k AssertKind.ent
  | AssertKind.sup, k => k AssertKind.sup
  | AssertKind.eqk, k => k AssertKind.eqk
  | AssertKind.ineq, k => k AssertKind.ineq

/-- CPS identity on assertions. -/
def forceAssertionA {β : Type} : AssertionA → (AssertionA → β) → β
  | ⟨kind, targets, body⟩, k =>
    forceKind kind (fun kind' => forceStrList targets (fun targets' =>
      forceStr body (fun body' => k ⟨kind', targets', body'⟩)))

/-- CPS identity on optional assertions. -/
def forceOptA {β : Type} : Option AssertionA → (Option AssertionA → β) → β
  | none, k => k none
  | some a, k => forceAssertionA a (fun a' => k (some a'))

/-- CPS identity on blocks. -/
def forceBlock {β : Type} : Block → (Block → β) → β
  | ⟨valid, code⟩, k =>
    forceBool valid (fun v' => forceStr code (fun c' => k ⟨v', c'⟩))

/-- CPS identity on function definitions. -/
def forceFD {β : Type} : FunctionDefinition → (FunctionDefinition → β) → β
  | ⟨name, parameters⟩, k =>
    forceStr name (fun n' => forceStrList parameters (fun p' => k ⟨n', p'⟩))

/-- CPS identity on `functionDefinitions` maps. -/
def forceAssocFD {β : Type} :
    List (Str × FunctionDefinition) → (List (Str × FunctionDefinition) → β) → β :=
  forceList (fun p k =>
    forceStr p.1 (fun a' => forceFD p.2 (fun b' => k (a', b'))))

/-- CPS identity on instructions. -/
def forceInstruction {β : Type} : Instruction → (Instruction → β) → β
  | ⟨ln, code, a, tg, s0, e0, succ, ifc, cf, infd, isfd, blk, ch, cs⟩, k =>
    forceNat ln (fun ln' => forceStr code (fun code' =>
      forceOptA a (fun a' => forceStrList tg (fun tg' =>
        forceNat s0 (fun s0' => forceNat e0 (fun e0' =>
          forceNat succ (fun succ' => forceBool ifc (fun ifc' =>
            forceStr cf (fun cf' => forceBool infd (fun infd' =>
              forceBool isfd (fun isfd' => forceBlock blk (fun blk' =>
                forceList forceNat ch (fun ch' =>
                  forceList forcePairSS cs (fun cs' =>
                    k ⟨ln', code', a', tg', s0', e0', succ', ifc', cf',
                      infd', isfd', blk', ch', cs'⟩))))))))))))))

theorem forceBool_eq {β : Type} (b : Bool) (k : Bool → β) :
    forceBool b k = k b := by
  cases b <;> rfl

theorem forceNat_eq {β : Type} (n : Nat) (k : Nat → β) :
    forceNat n k = k n := by
  induction n generalizing k with
  | zero => rfl
  | succ m ih => exact ih (fun x => k (x + 1))

theorem forceInt_eq {β : Type} (n : Int) (k : Int → β) :
    forceInt n k = k n := by
  cases n <;> simp [forceInt, forceNat_eq]

theorem forceChar_eq {β : Type} (c : Char) (k : Char → β) :
    forceChar c k = k c := rfl

theorem forceList_eq {α β : Type} {f : α → (α → β) → β}
    (hf : ∀ a k, f a k = k a) : ∀ (l : List α) (k : List α → β),
    forceList f l k = k l := by
  intro l
  induction l with
  | nil => intro k; rfl
  | cons a t ih =>
    intro k
    show f a (fun a' => forceList f t (fun t' => k (a' :: t'))) = k (a :: t)
    rw [hf]
    exact ih (fun t' => k (a :: t'))

theorem forceStr_eq {β : Type} (s : Str) (k : Str → β) :
    forceStr s k = k s :=
  forceList_eq forceChar_eq s k

theorem forceStrList_eq {β : Type} (l : List Str) (k : List Str → β) :
    forceStrList l k = k l :=
  forceList_eq forceStr_eq l k

theorem forcePairSN_eq {β : Type} (p : Str × Nat) (k : (Str × Nat) → β) :
    forcePairSN p k = k p := by
  obtain ⟨a, b⟩ := p
  show forceStr a _ = _
  rw [forceStr_eq]
  rw [forceNat_eq]

theorem forcePairSS_eq {β : Type} (p : Str × Str) (k : (Str × Str) → β) :
    forcePairSS p k = k p := by
  obtain ⟨a, b⟩ := p
  show forceStr a _ = _
  rw [forceStr_eq, forceStr_eq]

theorem forceAssocSN_eq {β : Type} (l : List (Str × Nat))
    (k : List (Str × Nat) → β) : forceAssocSN l k = k l :=
  forceList_eq forcePairSN_eq l k

theorem forceKind_eq {β : Type} (a : AssertKind) (k : AssertKind → β) :
    forceKind a k = k a := by
  cases a <;> rfl

theorem forceAssertionA_eq {β : Type} (a : AssertionA) (k : AssertionA → β) :
    forceAssertionA a k = k a := by
  obtain ⟨kind, targets, body⟩ := a
  show forceKind kind _ = _
  rw [forceKind_eq, forceStrList_eq, forceStr_eq]

theorem forceOptA_eq {β : Type} (a : Option AssertionA)
    (k : Option AssertionA → β) : forceOptA a k = k a := by
  cases a with
  | none => rfl
  | some x => simp only [forceOptA, forceAssertionA_eq]

theorem forceBlock_eq {β : Type} (b : Block) (k : Block → β) :
    forceBlock b k = k b := by
  obtain ⟨v, c⟩ := b
  show forceBool v _ = _
  rw [forceBool_eq, forceStr_eq]

theorem forceFD_eq {β : Type} (f : FunctionDefinition)
    (k : FunctionDefinition → β) : forceFD f k = k f := by
  obtain ⟨n, p⟩ := f
  show forceStr n _ = _
  rw [forceStr_eq, forceStrList_eq]

theorem forceAssocFD_eq {β : Type} (l : List (Str × FunctionDefinition))
    (k : List (Str × FunctionDefinition) → β) : forceAssocFD l k = k l := by
  refine forceList_eq ?_ l k
  intro a k'
  rw [forceStr_eq, forceFD_eq]

theorem forceInstruction_eq {β : Type} (i : Instruction)
    (k : Instruction → β) : forceInstruction i k = k i := by
  obtain ⟨ln, code, a, tg, s0, e0, succ, ifc, cf, infd, isfd, blk, ch, cs⟩ := i
  show forceNat ln _ = _
  rw [forceNat_eq, forceStr_eq, forceOptA_eq, forceStrList_eq, forceNat_eq,
    forceNat_eq, forceNat_eq, forceBool_eq, forceStr_eq, forceBool_eq,
    forceBool_eq, forceBlock_eq, forceList_eq forceNat_eq,
    forceList_eq forcePairSS_eq]

/-- CPS identity on fragment data. -/
def forceFragInfo {β : Type} : FragInfo → (FragInfo → β) → β
  | ⟨line, trimmedLine, tokens, isAssert, block, targets, trueStart, trueEnd,
      blocksOffset⟩, k =>
    forceStr line (fun line' => forceStr trimmedLine (fun tl' =>
      forceStrList tokens (fun tok' => forceBool isAssert (fun ia' =>
        forceBlock block (fun blk' => forceStrList targets (fun tg' =>
          forceNat trueStart (fun ts' => forceNat trueEnd (fun te' =>
            forceInt blocksOffset (fun bo' =>
              k ⟨line', tl', tok', ia', blk', tg', ts', te', bo'⟩)))))))))

theorem forceFragInfo_eq {β : Type} (fi : FragInfo) (k : FragInfo → β) :
    forceFragInfo fi k = k fi := by
  obtain ⟨line, tl, tok, ia, blk, tg, ts, te, bo⟩ := fi
  show forceStr line _ = _
  rw [forceStr_eq, forceStr_eq, forceStrList_eq, forceBool_eq, forceBlock_eq,
    forceStrList_eq, forceNat_eq, forceNat_eq, forceInt_eq]

/-- The mutable state of the main loop of `preprocessCode`. -/
structure LoopState where
  origCode : Str
  rest : Str
  pos : Nat
  i : Nat
  blocksOffset : Int
  regs : List (Str × Nat)
  shadowed : List Str
  functionNames : List Str
  blocks : List (Str × Str)
  acc : List Instruction
  ffl : List (Str × Nat)
  fdefs : List (Str × FunctionDefinition)
  deriving Inhabited

/-- A call into the recursive `preprocessCode` machinery: either a full
(sub-)preprocessing invocation (lines 477-685) or one continuation of its
main fragment loop (lines 503-643). -/
inductive PreCall
  | top (code : Str) (startIndex : Nat) (initialCodeOffset : Int)
      (allFunctionNames : List Str) (regs : List (Str × Nat))
      (shadowed : List Str)
  | loop (st : LoopState)

/-- The result of a `preRec` call: emitted instructions, the (by-reference)
register table, the `functionFirstLine` and `functionDefinitions` maps of the
pass, and the final instruction counter. -/
structure PreOut where
  instrs : List Instruction
  regs : List (Str × Nat)
  ffl : List (Str × Nat)
  fdefs : List (Str × FunctionDefinition)
  iFinal : Nat
  deriving DecidableEq, Inhabited, Repr

/-- The code offset handed to the recursive `preprocessCode` call for a gate
body (line 582): one past the opening brace of the body block, or 0 when no
brace is found (`find` returning `npos`, `npos + 1` wrapping to 0). -/
def gateSubOffset (origCode : Str) (trueStart : Nat) : Int :=
  match findCharFrom origCode '\x7b' trueStart with
  | some p => (p : Int) + 1
  | none => 0

/-- The position of the closing brace looked up for the synthetic `RETURN`
instruction (line 597): the first closing brace at or after the last body
instruction's end, or `npos` (the largest `size_t`) when absent. -/
def closingBracePos (origCode : Str) (fromPos : Nat) : Nat :=
  match findCharFrom origCode '\x7d' fromPos with
  | some p => p
  | none => stoulBound - 1

/-- The second pass of `preprocessCode` applied to one instruction
(lines 666-681): function calls get their `successorIndex` from
`functionFirstLine` (`operator[]` defaulting to 0), and calls to a function
of this pass are arity-checked and given their `callSubstitution`. -/
def linkInstruction (ffl : List (Str × Nat))
    (fdefs : List (Str × FunctionDefinition)) (instr : Instruction) :
    Except PError Instruction :=
  if ¬ instr.isFunctionCall then .ok instr
  else
    let instr' := { instr with
      successorIndex := (lookupAssoc ffl instr.calledFunction).getD 0 }
    match lookupAssoc fdefs instr'.calledFunction with
    | none => .ok instr'
    | some func =>
      let arguments := parseParameters instr'.code
      if func.parameters.length ≠ arguments.length then
        .error (mkPError1
          "Custom gate call uses incorrect number of arguments.".data)
      else
        .ok { instr' with callSubstitution := func.parameters.zip arguments }

/-- The second pass of `preprocessCode` over the whole instruction list
(lines 645-682, restricted to the call-linking part; the data-dependency
bookkeeping of the same loop is not modelled). -/
def linkCalls (ffl : List (Str × Nat))
    (fdefs : List (Str × FunctionDefinition)) :
    List Instruction → Except PError (List Instruction)
  | [] => .ok []
  | instr :: rest =>
    match linkInstruction ffl fdefs instr with
    | .error e => .error e
    | .ok x =>
      match linkCalls ffl fdefs rest with
      | .error e => .error e
      | .ok xs => .ok (x :: xs)

/-- One step of the recursive `preprocessCode` machine (lines 477-685), with
`recur` standing for the recursive call.  `.top` performs comment stripping,
block sweeping, gate-name discovery, runs the fragment loop, and then the
call-linking pass; `.loop` performs one fragment iteration.  Running out of
fuel, and an empty gate body (an out-of-bounds `subInstructions[0]` access
in the source), are model-level errors. -/
def preRecStep (recur : PreCall → Except PError PreOut) :
    PreCall → Except PError PreOut
  | .top code startIndex initialCodeOffset allFunctionNames regs
      shadowed =>
    let processedCode := removeComments code
    let swept := sweepBlocks processedCode
    forceStr swept.1 fun blocksRemoved =>
    forceList forcePairSS swept.2 fun blocks =>
    forceStrList (sweepFunctionNames processedCode ++ allFunctionNames)
      fun functionNames =>
    let st0 : LoopState :=
      { origCode := code, rest := blocksRemoved, pos := 0, i := startIndex,
        blocksOffset := initialCodeOffset, regs := regs, shadowed := shadowed,
        functionNames := functionNames, blocks := blocks, acc := [],
        ffl := [], fdefs := [] }
    match recur (.loop st0) with
    | .error e => .error e
    | .ok ⟨outInstrs, outRegs, outFfl, outFdefs, outIFinal⟩ =>
      match linkCalls outFfl outFdefs outInstrs with
      | .error e => .error e
      | .ok linked =>
        forceList forceInstruction linked fun linked' =>
        .ok { instrs := linked', regs := outRegs, ffl := outFfl,
              fdefs := outFdefs, iFinal := outIFinal }
  | .loop ⟨origCode, rest, pos, i, blocksOffset, regs, shadowed,
      functionNames, blocks, acc, ffl, fdefs⟩ =>
    match findCharFrom rest ';' 0 with
    | none =>
      .ok { instrs := acc, regs := regs, ffl := ffl,
            fdefs := fdefs, iFinal := i }
    | some e0 =>
      forceNat e0 fun e =>
      forceFragInfo (fragmentData rest pos blocksOffset blocks e)
        fun fi =>
      forceStr (rest.drop (e + 1)) fun rest' =>
      let pos' := pos + e + 1
      match (if isVariableDeclaration fi.line then
               processVariableDeclaration origCode fi.trueStart
                 fi.trimmedLine regs
             else .ok regs) with
      | .error err => .error err
      | .ok regs0 =>
        forceAssocSN regs0 fun regs' =>
        if isFunctionDefinition fi.line then
          if ¬ fi.block.valid then
            .error (mkPError1 "Gate definitions require a body block".data)
          else
            forceFD (parseFunctionDefinition fi.line) fun f =>
            forceAssocFD (insertAssoc fdefs f.name f) fun fdefs' =>
            match recur (.top fi.block.code (i + 1)
                (gateSubOffset origCode fi.trueStart)
                functionNames regs' f.parameters) with
            | .error err => .error err
            | .ok ⟨subInstrs, subRegs, _, _, _⟩ =>
              match subInstrs with
              | [] =>
                .error (mkPError1
                  "empty gate body: out-of-bounds access in the source".data)
              | first :: _ =>
                forceList forceInstruction (subInstrs.map
                    (fun ins => { ins with inFunctionDefinition := true }))
                  fun subMarked =>
                forceAssocSN (insertAssoc ffl f.name first.lineNumber)
                  fun ffl' =>
                forceNat (i + 1 + subInstrs.length) fun i2 =>
                let header : Instruction :=
                  { lineNumber := i, code := fi.line, assertion := none,
                    targets := fi.targets,
                    originalCodeStartPosition := fi.trueStart,
                    originalCodeEndPosition := fi.trueEnd,
                    successorIndex := i2 + 1, isFunctionCall := false,
                    calledFunction := [], inFunctionDefinition := false,
                    isFunctionDefinition := true, block := fi.block,
                    childInstructions := subMarked.map
                      (fun ins => ins.lineNumber),
                    callSubstitution := [] }
                let closingBrace : Nat := closingBracePos origCode
                  ((subMarked.getLastD default).originalCodeEndPosition)
                let retInstr : Instruction :=
                  { lineNumber := i2, code := "RETURN".data, assertion := none,
                    targets := fi.targets,
                    originalCodeStartPosition := closingBrace,
                    originalCodeEndPosition := closingBrace,
                    successorIndex := 0, isFunctionCall := false,
                    calledFunction := [], inFunctionDefinition := true,
                    isFunctionDefinition := false,
                    block := { valid := false, code := [] },
                    childInstructions := [], callSubstitution := [] }
                forceInstruction header fun header' =>
                forceInstruction retInstr fun retInstr' =>
                recur (.loop
                  { origCode := origCode, rest := rest', pos := pos',
                    i := i2 + 1, blocksOffset := fi.blocksOffset,
                    regs := subRegs, shadowed := shadowed,
                    functionNames := functionNames, blocks := blocks,
                    acc := acc ++ header' :: (subMarked ++ [retInstr']),
                    ffl := ffl', fdefs := fdefs' })
        else
          forceBool (functionNames.contains (fi.tokens.headD []))
            fun isCall =>
          let calledFunction := if isCall then fi.tokens.headD [] else []
          if fi.isAssert then
            match parseAssertion fi.line fi.block.code with
            | .error err => .error err
            | .ok a0 =>
              forceAssertionA (unfoldAssertionTargetRegisters a0 regs'
                  shadowed) fun a =>
              match validateAssertion a with
              | some err => .error err
              | none =>
                match validateTargets origCode fi.trueStart a.targets regs'
                    shadowed " in assertion".data with
                | some err => .error err
                | none =>
                  forceInstruction
                    { lineNumber := i, code := fi.line,
                      assertion := some a, targets := a.targets,
                      originalCodeStartPosition := fi.trueStart,
                      originalCodeEndPosition := fi.trueEnd,
                      successorIndex := i + 1, isFunctionCall := isCall,
                      calledFunction := calledFunction,
                      inFunctionDefinition := false,
                      isFunctionDefinition := false, block := fi.block,
                      childInstructions := [], callSubstitution := [] }
                    fun instr =>
                  recur (.loop
                    { origCode := origCode, rest := rest', pos := pos',
                      i := i + 1, blocksOffset := fi.blocksOffset,
                      regs := regs', shadowed := shadowed,
                      functionNames := functionNames, blocks := blocks,
                      acc := acc ++ [instr], ffl := ffl, fdefs := fdefs })
          else
            match (if ¬ isVariableDeclaration fi.line then
                     validateTargets origCode fi.trueStart fi.targets regs'
                       shadowed []
                   else none) with
            | some err => .error err
            | none =>
              forceInstruction
                { lineNumber := i, code := fi.line, assertion := none,
                  targets := fi.targets,
                  originalCodeStartPosition := fi.trueStart,
                  originalCodeEndPosition := fi.trueEnd,
                  successorIndex := i + 1, isFunctionCall := isCall,
                  calledFunction := calledFunction,
                  inFunctionDefinition := false,
                  isFunctionDefinition := false, block := fi.block,
                  childInstructions := [], callSubstitution := [] }
                fun instr =>
              recur (.loop
                { origCode := origCode, rest := rest', pos := pos',
                  i := i + 1, blocksOffset := fi.blocksOffset,
                  regs := regs', shadowed := shadowed,
                  functionNames := functionNames, blocks := blocks,
                  acc := acc ++ [instr], ffl := ffl, fdefs := fdefs })

/-- The recursive `preprocessCode` machine: iterate `preRecStep` `fuel`
times.  Written with `Nat.rec` directly (rather than by structural pattern
matching) so that kernel reduction on concrete programs peels one fuel step
in constant time instead of building a course-of-values tower. -/
def preRec (fuel : Nat) : PreCall → Except PError PreOut :=
  Nat.rec (motive := fun _ => PreCall → Except PError PreOut)
    (fun _ => .error (mkPError1 "fuel exhausted (model artifact)".data))
    (fun _ ih => preRecStep ih) fuel

theorem preRec_zero (c : PreCall) :
    preRec 0 c = .error (mkPError1 "fuel exhausted (model artifact)".data) :=
  rfl

theorem preRec_succ (fuel : Nat) (c : PreCall) :
    preRec (fuel + 1) c = preRecStep (preRec fuel) c := rfl

/-! ## Invariants of the preprocessing machine -/

theorem lookupAssoc_mem {β : Type} {l : List (Str × β)} {k : Str} {v : β}
    (h : lookupAssoc l k = some v) : (k, v) ∈ l := by
  induction l with
  | nil => exact absurd h (by simp [lookupAssoc])
  | cons p t ih =>
    obtain ⟨a, b⟩ := p
    unfold lookupAssoc at h
    by_cases hak : a = k
    · rw [if_pos hak] at h
      injection h with h
      subst hak
      subst h
      exact List.mem_cons_self _ _
    · rw [if_neg hak] at h
      exact List.mem_cons_of_mem _ (ih h)

theorem lookupAssoc_append_left {β : Type} {l : List (Str × β)} {k : Str}
    {v : β} (m : List (Str × β)) (h : lookupAssoc l k = some v) :
    lookupAssoc (l ++ m) k = some v := by
  induction l with
  | nil => exact absurd h (by simp [lookupAssoc])
  | cons p t ih =>
    obtain ⟨a, b⟩ := p
    unfold lookupAssoc at h
    rw [List.cons_append]
    unfold lookupAssoc
    by_cases hak : a = k
    · rwa [if_pos hak] at h ⊢
    · rw [if_neg hak] at h ⊢
      exact ih h

/-- Register tables only grow during preprocessing: every binding visible
before a step is still visible, with the same size, after it. -/
def RegsLe (r1 r2 : List (Str × Nat)) : Prop :=
  ∀ n v, lookupAssoc r1 n = some v → lookupAssoc r2 n = some v

theorem RegsLe.refl (r : List (Str × Nat)) : RegsLe r r := fun _ _ h => h

theorem RegsLe.trans {r1 r2 r3 : List (Str × Nat)} (h1 : RegsLe r1 r2)
    (h2 : RegsLe r2 r3) : RegsLe r1 r3 := fun n v h => h2 n v (h1 n v h)

theorem RegsLe.insert (r : List (Str × Nat)) (k : Str) (v : Nat) :
    RegsLe r (insertAssoc r k v) := by
  intro n w h
  unfold insertAssoc
  by_cases hk : (lookupAssoc r k).isSome
  · rwa [if_pos hk]
  · rw [if_neg hk]
    exact lookupAssoc_append_left _ h

/-- What target validation guarantees about one accepted target: it is
nonempty, and if it is bracketed then it splits as `name[k]` with a nonzero
name, a digit index below the `std::stoul` range, and the name either
shadowed or declared with `k < size(name)`. -/
def TargetWF (regs : List (Str × Nat)) (shadowed : List Str) (t : Str) :
    Prop :=
  t ≠ [] ∧
  ∀ opn, findCharFrom t '[' 0 = some opn →
    ∃ cls, findCharFrom t ']' (opn + 1) = some cls ∧ opn ≠ 0 ∧
      cls = t.length - 1 ∧
      isDigits (substrC t (opn + 1) (cls - opn - 1)) = true ∧
      natOfDigits (substrC t (opn + 1) (cls - opn - 1)) < stoulBound ∧
      (substrC t 0 opn ∈ shadowed ∨
        ∃ sz, lookupAssoc regs (substrC t 0 opn) = some sz ∧
          natOfDigits (substrC t (opn + 1) (cls - opn - 1)) < sz)

theorem TargetWF_mono {r1 r2 : List (Str × Nat)} {shadowed : List Str}
    {t : Str} (hle : RegsLe r1 r2) (h : TargetWF r1 shadowed t) :
    TargetWF r2 shadowed t := by
  obtain ⟨hne, hbr⟩ := h
  refine ⟨hne, ?_⟩
  intro opn hopn
  obtain ⟨cls, h1, h2, h3, h4, h5, h6⟩ := hbr opn hopn
  refine ⟨cls, h1, h2, h3, h4, h5, ?_⟩
  cases h6 with
  | inl hs => exact Or.inl hs
  | inr hd =>
    obtain ⟨sz, hsz, hlt⟩ := hd
    exact Or.inr ⟨sz, hle _ _ hsz, hlt⟩

theorem validateTarget_ok_wf {code : Str} {start : Nat} {t : Str}
    {regs : List (Str × Nat)} {shadowed : List Str} {ctx : Str}
    (h : validateTarget code start t regs shadowed ctx = none) :
    TargetWF regs shadowed t := by
  unfold validateTarget at h
  by_cases hemp : t.isEmpty = true
  · rw [if_pos hemp] at h
    exact absurd h (by simp)
  · rw [if_neg hemp] at h
    have hne : t ≠ [] := by
      cases t with
      | nil => simp at hemp
      | cons a b => simp
    refine ⟨hne, ?_⟩
    intro opn hopn
    rw [hopn] at h
    simp only [] at h
    cases hcls : findCharFrom t ']' (opn + 1) with
    | none =>
      rw [hcls] at h
      exact absurd h (by simp)
    | some cls =>
      rw [hcls] at h
      simp only [] at h
      by_cases hcond : opn = 0 ∨ cls ≠ t.length - 1
      · rw [if_pos hcond] at h
        exact absurd h (by simp)
      · rw [if_neg hcond] at h
        push_neg at hcond
        by_cases hdig : ¬ isDigits (substrC t (opn + 1) (cls - opn - 1)) = true
        · rw [if_pos hdig] at h
          exact absurd h (by simp)
        · rw [if_neg hdig] at h
          push_neg at hdig
          by_cases hrng : stoulBound ≤
              natOfDigits (substrC t (opn + 1) (cls - opn - 1))
          · rw [if_pos hrng] at h
            exact absurd h (by simp)
          · rw [if_neg hrng] at h
            push_neg at hrng
            refine ⟨cls, rfl, hcond.1, hcond.2, hdig, hrng, ?_⟩
            by_cases hsh : shadowed.contains (substrC t 0 opn) = true
            · exact Or.inl (by simpa using hsh)
            · rw [if_neg hsh] at h
              cases hlk : lookupAssoc regs (substrC t 0 opn) with
              | none =>
                rw [hlk] at h
                exact absurd h (by simp)
              | some sz =>
                rw [hlk] at h
                simp only [] at h
                by_cases hle : sz ≤
                    natOfDigits (substrC t (opn + 1) (cls - opn - 1))
                · rw [if_pos hle] at h
                  exact absurd h (by simp)
                · push_neg at hle
                  exact Or.inr ⟨sz, rfl, hle⟩

theorem validateTargets_ok_wf {code : Str} {start : Nat} {ts : List Str}
    {regs : List (Str × Nat)} {shadowed : List Str} {ctx : Str}
    (h : validateTargets code start ts regs shadowed ctx = none) :
    ∀ t ∈ ts, TargetWF regs shadowed t := by
  induction ts with
  | nil => intro t ht; exact absurd ht (List.not_mem_nil t)
  | cons x rest ih =>
    unfold validateTargets at h
    cases hx : validateTarget code start x regs shadowed ctx with
    | some e =>
      rw [hx] at h
      exact absurd h (by simp)
    | none =>
      rw [hx] at h
      intro t ht
      cases List.mem_cons.mp ht with
      | inl hEq => exact hEq ▸ validateTarget_ok_wf hx
      | inr hmem => exact ih h t hmem

/-- The fields of an instruction that the call-linking pass never changes,
together with the preservation of `successorIndex` on non-calls. -/
def SameCore (a b : Instruction) : Prop :=
  b.lineNumber = a.lineNumber ∧ b.code = a.code ∧ b.assertion = a.assertion ∧
  b.targets = a.targets ∧ b.inFunctionDefinition = a.inFunctionDefinition ∧
  b.isFunctionDefinition = a.isFunctionDefinition ∧
  b.childInstructions = a.childInstructions ∧
  b.isFunctionCall = a.isFunctionCall ∧
  b.calledFunction = a.calledFunction ∧
  (b.isFunctionCall = false → b.successorIndex = a.successorIndex)

theorem linkInstruction_spec {ffl : List (Str × Nat)}
    {fdefs : List (Str × FunctionDefinition)} {a b : Instruction}
    (h : linkInstruction ffl fdefs a = .ok b) :
    SameCore a b ∧
    (b.isFunctionCall = true →
      b.successorIndex = (lookupAssoc ffl b.calledFunction).getD 0 ∧
      ∀ fd, lookupAssoc fdefs b.calledFunction = some fd →
        fd.parameters.length = (parseParameters b.code).length) ∧
    (a.isFunctionCall = false → b = a) := by
  unfold linkInstruction at h
  by_cases hc : ¬ a.isFunctionCall = true
  · rw [if_pos hc] at h
    injection h with h
    subst h
    have hcf : a.isFunctionCall = false := by
      cases hv : a.isFunctionCall
      · rfl
      · exact absurd hv hc
    refine ⟨⟨rfl, rfl, rfl, rfl, rfl, rfl, rfl, rfl, rfl, fun _ => rfl⟩,
      ?_, fun _ => rfl⟩
    intro hcall
    exact absurd hcall hc
  · rw [if_neg hc] at h
    push_neg at hc
    simp only [] at h
    cases hlk : lookupAssoc fdefs a.calledFunction with
    | none =>
      rw [hlk] at h
      injection h with h
      subst h
      refine ⟨⟨rfl, rfl, rfl, rfl, rfl, rfl, rfl, rfl, rfl, ?_⟩, ?_, ?_⟩
      · intro hfc
        rw [hc] at hfc
        exact Bool.noConfusion hfc
      · intro _
        refine ⟨rfl, ?_⟩
        intro fd hfd
        rw [hlk] at hfd
        exact Option.noConfusion hfd
      · intro hfc
        rw [hc] at hfc
        exact Bool.noConfusion hfc
    | some func =>
      rw [hlk] at h
      simp only [] at h
      split at h
      · exact absurd h (by simp)
      · next har =>
          push_neg at har
          injection h with h
          subst h
          refine ⟨⟨rfl, rfl, rfl, rfl, rfl, rfl, rfl, rfl, rfl, ?_⟩, ?_, ?_⟩
          · intro hfc
            rw [hc] at hfc
            exact Bool.noConfusion hfc
          · intro _
            refine ⟨rfl, ?_⟩
            intro fd hfd
            have hfd' : lookupAssoc fdefs a.calledFunction = some fd := hfd
            rw [hlk] at hfd'
            injection hfd' with hfd'
            subst hfd'
            simpa using har
          · intro hfc
            rw [hc] at hfc
            exact Bool.noConfusion hfc

theorem linkCalls_spec {ffl : List (Str × Nat)}
    {fdefs : List (Str × FunctionDefinition)} :
    ∀ {l l' : List Instruction}, linkCalls ffl fdefs l = .ok l' →
    l'.length = l.length ∧
    (∀ b ∈ l', (b.isFunctionCall = true →
        b.successorIndex = (lookupAssoc ffl b.calledFunction).getD 0 ∧
        ∀ fd, lookupAssoc fdefs b.calledFunction = some fd →
          fd.parameters.length = (parseParameters b.code).length) ∧
      ∃ a ∈ l, SameCore a b) ∧
    (∀ a ∈ l, a.isFunctionCall = false → a ∈ l') := by
  intro l
  induction l with
  | nil =>
    intro l' h
    unfold linkCalls at h
    injection h with h
    subst h
    refine ⟨rfl, ?_, ?_⟩
    · intro b hb
      exact absurd hb (List.not_mem_nil b)
    · intro a ha
      exact absurd ha (List.not_mem_nil a)
  | cons x rest ih =>
    intro l' h
    unfold linkCalls at h
    cases hx : linkInstruction ffl fdefs x with
    | error e =>
      rw [hx] at h
      exact absurd h (by simp)
    | ok y =>
      rw [hx] at h
      cases hr : linkCalls ffl fdefs rest with
      | error e =>
        rw [hr] at h
        exact absurd h (by simp)
      | ok ys =>
        rw [hr] at h
        injection h with h
        subst h
        obtain ⟨hlen, hmem, hkeep⟩ := ih hr
        obtain ⟨hcore, hcall, hid⟩ := linkInstruction_spec hx
        refine ⟨by simp [hlen], ?_, ?_⟩
        · intro b hb
          cases List.mem_cons.mp hb with
          | inl hEq =>
            subst hEq
            exact ⟨hcall, x, List.mem_cons_self _ _, hcore⟩
          | inr hm =>
            obtain ⟨h1, a, ha, h2⟩ := hmem b hm
            exact ⟨h1, a, List.mem_cons_of_mem _ ha, h2⟩
        · intro a ha hfc
          cases List.mem_cons.mp ha with
          | inl hEq =>
            subst hEq
            rw [hid hfc]
            exact List.mem_cons_self _ _
          | inr hm =>
            exact List.mem_cons_of_mem _ (hkeep a hm hfc)

theorem processVariableDeclaration_regsLe {origCode : Str} {trueStart : Nat}
    {trimmedLine : Str} {regs regs' : List (Str × Nat)}
    (h : processVariableDeclaration origCode trueStart trimmedLine regs =
      .ok regs') : RegsLe regs regs' := by
  unfold processVariableDeclaration at h
  simp only [] at h
  split at h
  all_goals split at h
  any_goals exact Except.noConfusion h
  all_goals split at h
  any_goals exact Except.noConfusion h
  all_goals
    injection h with h
    subst h
    exact RegsLe.insert _ _ _

/-- The running invariant on emitted instructions, relative to the current
instruction counter `n`, register table and shadowed-register list: every
successor index is 0 or at most `n`, every line number is below `n`, and the
targets of every top-level assertion instruction are well formed. -/
def InstrsInv (n : Nat) (instrs : List Instruction)
    (regs : List (Str × Nat)) (shadowed : List Str) : Prop :=
  ∀ instr ∈ instrs,
    (instr.successorIndex = 0 ∨ instr.successorIndex ≤ n) ∧
    instr.lineNumber < n ∧
    (instr.assertion.isSome = true → instr.inFunctionDefinition = false →
      ∀ t ∈ instr.targets, TargetWF regs shadowed t)

/-- The running invariant on the `functionFirstLine` map: every recorded
first line is below the counter and is the first child of a gate-definition
header instruction for the recorded gate name. -/
def FFLInv (n : Nat) (ffl : List (Str × Nat))
    (instrs : List Instruction) : Prop :=
  ∀ p ∈ ffl, p.2 < n ∧
    ∃ q ∈ instrs, q.isFunctionDefinition = true ∧ q.isFunctionCall = false ∧
      (parseFunctionDefinition q.code).name = p.1 ∧
      q.childInstructions.head? = some p.2

/-- What the call-linking pass establishes: every call instruction's
successor is the `functionFirstLine` entry of its callee (0 when absent),
and a callee found in this pass's `functionDefinitions` map has as many
parameters as the call has arguments. -/
def CallLinked (ffl : List (Str × Nat))
    (fdefs : List (Str × FunctionDefinition))
    (instrs : List Instruction) : Prop :=
  ∀ instr ∈ instrs, instr.isFunctionCall = true →
    instr.successorIndex = (lookupAssoc ffl instr.calledFunction).getD 0 ∧
    ∀ fd, lookupAssoc fdefs instr.calledFunction = some fd →
      fd.parameters.length = (parseParameters instr.code).length

theorem InstrsInv_mono {n n' : Nat} {instrs : List Instruction}
    {r1 r2 : List (Str × Nat)} {sh : List Str} (hn : n ≤ n')
    (hr : RegsLe r1 r2) (h : InstrsInv n instrs r1 sh) :
    InstrsInv n' instrs r2 sh := by
  intro instr hmem
  obtain ⟨h1, h2, h3⟩ := h instr hmem
  refine ⟨?_, lt_of_lt_of_le h2 hn,
    fun ha hf t ht => TargetWF_mono hr (h3 ha hf t ht)⟩
  cases h1 with
  | inl h0 => exact Or.inl h0
  | inr hle => exact Or.inr (le_trans hle hn)

theorem FFLInv_mono {n n' : Nat} {ffl : List (Str × Nat)}
    {instrs instrs' : List Instruction} (hn : n ≤ n')
    (hsub : ∀ x ∈ instrs, x ∈ instrs') (h : FFLInv n ffl instrs) :
    FFLInv n' ffl instrs' := by
  intro p hp
  obtain ⟨hlt, q, hq, h1, h2, h3, h4⟩ := h p hp
  exact ⟨lt_of_lt_of_le hlt hn, q, hsub q hq, h1, h2, h3, h4⟩

/-- The running invariant on assertion instructions inside gate-definition
bodies: each one has an enclosing gate-definition header among the emitted
instructions (it is recorded as one of that header's children), and its
targets are well formed with the header's formal parameters as the shadowed
registers — exactly the list the source passes to the body's recursive
preprocessing call (line 576). -/
def InFnInv (instrs : List Instruction) (regs : List (Str × Nat)) : Prop :=
  ∀ instr ∈ instrs, instr.assertion.isSome = true →
    instr.inFunctionDefinition = true →
    ∃ q ∈ instrs, q.isFunctionDefinition = true ∧ q.isFunctionCall = false ∧
      instr.lineNumber ∈ q.childInstructions ∧
      ∀ t ∈ instr.targets,
        TargetWF regs (parseFunctionDefinition q.code).parameters t

set_option maxHeartbeats 2000000 in
theorem preRec_inv : ∀ fuel : Nat,
    (∀ oc rest pos i off regs shd fns blks acc ffl fdefs out,
      preRec fuel (.loop ⟨oc, rest, pos, i, off, regs, shd, fns, blks, acc,
        ffl, fdefs⟩) = .ok out →
      ∀ base, i = base + acc.length →
      InstrsInv i acc regs shd →
      FFLInv i ffl acc →
      InFnInv acc regs →
      out.iFinal = base + out.instrs.length ∧
      RegsLe regs out.regs ∧
      (∀ x ∈ acc, x ∈ out.instrs) ∧
      InstrsInv out.iFinal out.instrs out.regs shd ∧
      FFLInv out.iFinal out.ffl out.instrs ∧
      InFnInv out.instrs out.regs) ∧
    (∀ code s ioff fns regs shd out,
      preRec fuel (.top code s ioff fns regs shd) = .ok out →
      out.iFinal = s + out.instrs.length ∧
      RegsLe regs out.regs ∧
      InstrsInv out.iFinal out.instrs out.regs shd ∧
      FFLInv out.iFinal out.ffl out.instrs ∧
      CallLinked out.ffl out.fdefs out.instrs ∧
      InFnInv out.instrs out.regs) := by
  intro fuel
  induction fuel with
  | zero =>
    constructor
    · intro oc rest pos i off regs shd fns blks acc ffl fdefs out h
      rw [preRec_zero] at h
      exact Except.noConfusion h
    · intro code s ioff fns regs shd out h
      rw [preRec_zero] at h
      exact Except.noConfusion h
  | succ fuel ih =>
    constructor
    · intro oc rest pos i off regs shd fns blks acc ffl fdefs out h base
        hbase hII hFF hIF
      rw [preRec_succ] at h
      simp only [preRecStep, forceNat_eq, forceInt_eq, forceBool_eq,
        forceStr_eq, forceStrList_eq, forceAssocSN_eq, forceAssertionA_eq,
        forceFD_eq, forceAssocFD_eq, forceInstruction_eq, forceFragInfo_eq,
        forceList_eq forceInstruction_eq, forceList_eq forcePairSS_eq] at h
      cases hfind : findCharFrom rest ';' 0 with
      | none =>
        rw [hfind] at h
        simp only [] at h
        injection h with h
        subst h
        exact ⟨hbase, RegsLe.refl _, fun x hx => hx, hII, hFF, hIF⟩
      | some e0 =>
        rw [hfind] at h
        simp only [] at h
        split at h
        · exact Except.noConfusion h
        · rename_i regs0 hdecl
          have hregs0 : RegsLe regs regs0 := by
            split at hdecl
            · exact processVariableDeclaration_regsLe hdecl
            · injection hdecl with hd
              subst hd
              exact RegsLe.refl _
          split at h
          · -- gate definition branch
            rename_i hisfd
            split at h
            · exact Except.noConfusion h
            · rename_i hbv
              split at h
              · exact Except.noConfusion h
              · rename_i subInstrs subRegs subFfl subFdefs subIFinal hsub
                split at h
                · exact Except.noConfusion h
                · rename_i first srest
                  obtain ⟨hsLen, hsRegs, hsII, hsFF, hsCL, hsIF⟩ :=
                    ih.2 _ _ _ _ _ _ _ hsub
                  have hsLen' : subIFinal = (i + 1) + (first :: srest).length :=
                    hsLen
                  have hsRegs' : RegsLe regs0 subRegs := hsRegs
                  have hsII' : InstrsInv subIFinal (first :: srest) subRegs
                      _ := hsII
                  have hsIF' : InFnInv (first :: srest) subRegs := hsIF
                  have hreg2 : RegsLe regs subRegs := hregs0.trans hsRegs'
                  obtain ⟨hLen, hRegs, hMem, hIIo, hFFo, hIFo⟩ :=
                    ih.1 _ _ _ _ _ _ _ _ _ _ _ _ out h base
                      (by
                        simp [List.length_append, List.length_cons,
                          List.length_map]
                        omega)
                      (by
                        intro x hx
                        rcases List.mem_append.mp hx with hxa | hxr
                        · exact InstrsInv_mono (by omega) hreg2 hII x hxa
                        · rcases List.mem_cons.mp hxr with hxh | hxt
                          · subst hxh
                            refine ⟨Or.inr (le_refl _), ?_, ?_⟩
                            · show i < _
                              omega
                            · intro ha _
                              exact Bool.noConfusion ha
                          · rcases List.mem_append.mp hxt with hxm | hxret
                            · rcases List.mem_map.mp hxm with ⟨y, hy, rfl⟩
                              obtain ⟨hy1, hy2, _⟩ := hsII' y hy
                              refine ⟨?_, ?_, ?_⟩
                              · cases hy1 with
                                | inl h0 => exact Or.inl h0
                                | inr hle =>
                                  refine Or.inr ?_
                                  show y.successorIndex ≤ _
                                  omega
                              · show y.lineNumber < _
                                omega
                              · intro _ hf
                                exact Bool.noConfusion hf
                            · rw [List.mem_singleton] at hxret
                              subst hxret
                              refine ⟨Or.inl rfl, ?_, ?_⟩
                              · show i + 1 + (first :: srest).length < _
                                omega
                              · intro ha _
                                exact Bool.noConfusion ha)
                      (by
                        intro p hp
                        unfold insertAssoc at hp
                        split at hp
                        · obtain ⟨hlt, q, hq, hq1, hq2, hq3, hq4⟩ := hFF p hp
                          exact ⟨by omega, q, List.mem_append_left _ hq,
                            hq1, hq2, hq3, hq4⟩
                        · rcases List.mem_append.mp hp with hpold | hpnew
                          · obtain ⟨hlt, q, hq, hq1, hq2, hq3, hq4⟩ :=
                              hFF p hpold
                            exact ⟨by omega, q, List.mem_append_left _ hq,
                              hq1, hq2, hq3, hq4⟩
                          · rw [List.mem_singleton] at hpnew
                            subst hpnew
                            refine ⟨?_, _, List.mem_append_right _
                              (List.mem_cons_self _ _), rfl, rfl, rfl, rfl⟩
                            have := (hsII' first
                              (List.mem_cons_self _ _)).2.1
                            show first.lineNumber < _
                            omega)
                      (by
                        intro x hx ha hf
                        rcases List.mem_append.mp hx with hxa | hxr
                        · obtain ⟨q, hq, hq1, hq2, hq3, hq4⟩ :=
                            hIF x hxa ha hf
                          exact ⟨q, List.mem_append_left _ hq, hq1, hq2,
                            hq3, fun t ht => TargetWF_mono hreg2 (hq4 t ht)⟩
                        · rcases List.mem_cons.mp hxr with hxh | hxt
                          · subst hxh
                            exact Bool.noConfusion ha
                          · rcases List.mem_append.mp hxt with hxm | hxret
                            · rcases List.mem_map.mp hxm with ⟨y, hy, rfl⟩
                              cases hyf : y.inFunctionDefinition with
                              | false =>
                                refine ⟨_, List.mem_append_right _
                                  (List.mem_cons_self _ _), rfl, rfl,
                                  ?_, ?_⟩
                                · exact List.mem_map_of_mem _
                                    (List.mem_map_of_mem _ hy)
                                · intro t ht
                                  have ha' : y.assertion.isSome = true := ha
                                  exact (hsII' y hy).2.2 ha' hyf t ht
                              | true =>
                                obtain ⟨q', hq', hq1, hq2, hq3, hq4⟩ :=
                                  hsIF' y hy ha hyf
                                refine ⟨_, List.mem_append_right _
                                  (List.mem_cons_of_mem _
                                    (List.mem_append_left _
                                      (List.mem_map_of_mem _ hq'))),
                                  hq1, hq2, hq3, hq4⟩
                            · rw [List.mem_singleton] at hxret
                              subst hxret
                              exact Bool.noConfusion ha)
                  exact ⟨hLen, hreg2.trans hRegs,
                    fun x hx => hMem x (List.mem_append_left _ hx),
                    hIIo, hFFo, hIFo⟩
          · -- not a gate definition
            rename_i hisfd
            split at h
            · -- assertion branch
              rename_i hisassert
              split at h
              · exact Except.noConfusion h
              · rename_i a0 ha0
                split at h
                · exact Except.noConfusion h
                · rename_i hva
                  split at h
                  · exact Except.noConfusion h
                  · rename_i hvt
                    obtain ⟨hLen, hRegs, hMem, hIIo, hFFo, hIFo⟩ :=
                      ih.1 _ _ _ _ _ _ _ _ _ _ _ _ out h base
                        (by
                          simp [List.length_append]
                          omega)
                        (by
                          intro x hx
                          rcases List.mem_append.mp hx with hxa | hxi
                          · exact InstrsInv_mono (Nat.le_succ i) hregs0 hII x hxa
                          · rw [List.mem_singleton] at hxi
                            subst hxi
                            refine ⟨Or.inr (le_refl _), Nat.lt_succ_self i,
                              ?_⟩
                            intro _ _ t ht
                            exact validateTargets_ok_wf hvt t ht)
                        (FFLInv_mono (Nat.le_succ i)
                          (fun x hx => List.mem_append_left _ hx) hFF)
                        (by
                          intro x hx ha hf
                          rcases List.mem_append.mp hx with hxa | hxi
                          · obtain ⟨q, hq, hq1, hq2, hq3, hq4⟩ :=
                              hIF x hxa ha hf
                            exact ⟨q, List.mem_append_left _ hq, hq1, hq2,
                              hq3, fun t ht =>
                                TargetWF_mono hregs0 (hq4 t ht)⟩
                          · rw [List.mem_singleton] at hxi
                            subst hxi
                            exact Bool.noConfusion hf)
                    exact ⟨hLen, hregs0.trans hRegs,
                      fun x hx => hMem x (List.mem_append_left _ hx),
                      hIIo, hFFo, hIFo⟩
            · -- plain instruction branch
              rename_i hisassert
              split at h
              · exact Except.noConfusion h
              · rename_i hvt
                obtain ⟨hLen, hRegs, hMem, hIIo, hFFo, hIFo⟩ :=
                  ih.1 _ _ _ _ _ _ _ _ _ _ _ _ out h base
                    (by
                      simp [List.length_append]
                      omega)
                    (by
                      intro x hx
                      rcases List.mem_append.mp hx with hxa | hxi
                      · exact InstrsInv_mono (Nat.le_succ i) hregs0 hII x hxa
                      · rw [List.mem_singleton] at hxi
                        subst hxi
                        refine ⟨Or.inr (le_refl _), Nat.lt_succ_self i, ?_⟩
                        intro ha _
                        exact Bool.noConfusion ha)
                    (FFLInv_mono (Nat.le_succ i)
                      (fun x hx => List.mem_append_left _ hx) hFF)
                    (by
                      intro x hx ha hf
                      rcases List.mem_append.mp hx with hxa | hxi
                      · obtain ⟨q, hq, hq1, hq2, hq3, hq4⟩ :=
                          hIF x hxa ha hf
                        exact ⟨q, List.mem_append_left _ hq, hq1, hq2,
                          hq3, fun t ht =>
                            TargetWF_mono hregs0 (hq4 t ht)⟩
                      · rw [List.mem_singleton] at hxi
                        subst hxi
                        exact Bool.noConfusion hf)
                exact ⟨hLen, hregs0.trans hRegs,
                  fun x hx => hMem x (List.mem_append_left _ hx),
                  hIIo, hFFo, hIFo⟩
    · intro code s ioff fns regs shd out h
      rw [preRec_succ] at h
      simp only [preRecStep, forceStr_eq, forceStrList_eq,
        forceInstruction_eq, forceList_eq forceInstruction_eq,
        forceList_eq forcePairSS_eq] at h
      split at h
      · exact Except.noConfusion h
      · rename_i lInstrs lRegs lFfl lFdefs lIFinal hloop
        split at h
        · exact Except.noConfusion h
        · rename_i linked hlink
          injection h with h
          subst h
          obtain ⟨hlLen, hlRegs, _, hlII, hlFF, hlIF⟩ :=
            ih.1 _ _ _ _ _ _ _ _ _ _ _ _ _ hloop s (by simp)
              (fun x hx => absurd hx (List.not_mem_nil x))
              (fun p hp => absurd hp (List.not_mem_nil p))
              (fun x hx => absurd hx (List.not_mem_nil x))
          have hlLen' : lIFinal = s + lInstrs.length := hlLen
          have hlRegs' : RegsLe regs lRegs := hlRegs
          have hlII' : InstrsInv lIFinal lInstrs lRegs shd := hlII
          have hlFF' : FFLInv lIFinal lFfl lInstrs := hlFF
          have hlIF' : InFnInv lInstrs lRegs := hlIF
          obtain ⟨hlen, hmemspec, hkeep⟩ := linkCalls_spec hlink
          refine ⟨?_, hlRegs', ?_, ?_, ?_, ?_⟩
          · show lIFinal = s + linked.length
            rw [hlen]
            exact hlLen'
          · intro b hb
            obtain ⟨hcall, a, ha, hc1, hc2, hc3, hc4, hc5, hc6, hc7, hc8,
              hc9, hc10⟩ := hmemspec b hb
            obtain ⟨ha1, ha2, ha3⟩ := hlII' a ha
            refine ⟨?_, ?_, ?_⟩
            · cases hfc : b.isFunctionCall with
              | false =>
                rw [hc10 hfc]
                exact ha1
              | true =>
                rw [(hcall hfc).1]
                cases hlu : lookupAssoc lFfl b.calledFunction with
                | none => exact Or.inl rfl
                | some v =>
                  have hv := (hlFF' _ (lookupAssoc_mem hlu)).1
                  rw [Option.getD_some]
                  exact Or.inr (le_of_lt hv)
            · rw [hc1]
              exact ha2
            · intro hba hbf t ht
              rw [hc3] at hba
              rw [hc5] at hbf
              rw [hc4] at ht
              exact ha3 hba hbf t ht
          · intro p hp
            obtain ⟨hlt, q, hq, hq1, hq2, hq3, hq4⟩ := hlFF' p hp
            exact ⟨hlt, q, hkeep q hq hq2, hq1, hq2, hq3, hq4⟩
          · intro b hb hbc
            exact (hmemspec b hb).1 hbc
          · intro b hb hba hbf
            obtain ⟨hcall, a, ha, hc1, hc2, hc3, hc4, hc5, hc6, hc7, hc8,
              hc9, hc10⟩ := hmemspec b hb
            rw [hc3] at hba
            rw [hc5] at hbf
            obtain ⟨q, hq, hq1, hq2, hq3, hq4⟩ := hlIF' a ha hba hbf
            refine ⟨q, hkeep q hq hq2, hq1, hq2, ?_, ?_⟩
            · rw [hc1]
              exact hq3
            · intro t ht
              rw [hc4] at ht
              exact hq4 t ht

/-- Fuel sufficient for every loop of `preprocessCode` on the given source
(every fragment consumes at least one character of the block-elided text,
whose length is linearly bounded in the input length). -/
def preprocessFuel (code : Str) : Nat := 32 * code.length + 64

/-- The public two-argument `preprocessCode` overload (lines 471-475): fresh
register table, no outer function names, no shadowed registers.  The
`processedCode` out-parameter is not modelled (no claim refers to it). -/
def preprocessCodeFull (code : Str) : Except PError (List Instruction) :=
  match preRec (preprocessFuel code) (.top code 0 0 [] [] []) with
  | .error e => .error e
  | .ok out => .ok out.instrs


/-! ## Claims C1, C2, C4, C5, C8, C10 -/

set_option maxRecDepth 100000

-- ### C1 amended + counterexample + witness

theorem claim_C1 :
    ∀ (fuel : Nat) (code : Str) (s : Nat) (ioff : Int) (fns : List Str)
      (regs : List (Str × Nat)) (shd : List Str) (out : PreOut),
      preRec fuel (.top code s ioff fns regs shd) = .ok out →
      ∀ instr ∈ out.instrs, instr.assertion.isSome = true →
        (instr.inFunctionDefinition = false →
          ∀ t ∈ instr.targets, TargetWF out.regs shd t) ∧
        (instr.inFunctionDefinition = true →
          ∃ q ∈ out.instrs, q.isFunctionDefinition = true ∧
            instr.lineNumber ∈ q.childInstructions ∧
            ∀ t ∈ instr.targets,
              TargetWF out.regs
                (parseFunctionDefinition q.code).parameters t) := by
  intro fuel code s ioff fns regs shd out h instr hmem ha
  obtain ⟨_, _, hII, _, _, hIF⟩ := (preRec_inv fuel).2 _ _ _ _ _ _ _ h
  constructor
  · intro hf t ht
    exact (hII instr hmem).2.2 ha hf t ht
  · intro hf
    obtain ⟨q, hq, hq1, _, hq3, hq4⟩ := hIF instr hmem ha hf
    exact ⟨q, hq, hq1, hq3, hq4⟩

/-- The program of the C1 counterexample: a bare assertion target `foo` that
names no declared register. -/
def cex1code : Str := "qreg q[2]; assert-ent q[0], foo;".data

/-- The preprocessing result of `cex1code`. -/
def cex1out : PreOut :=
  (preRec (preprocessFuel cex1code)
    (.top cex1code 0 0 [] [] [])).toOption.getD default

theorem claim_C1_counterexample :
    (preRec (preprocessFuel cex1code)
      (.top cex1code 0 0 [] [] [])).isOk = true ∧
    (cex1out.instrs.getD 1 default).assertion.isSome = true ∧
    (cex1out.instrs.getD 1 default).inFunctionDefinition = false ∧
    "foo".data ∈ (cex1out.instrs.getD 1 default).targets ∧
    findCharFrom "foo".data '[' 0 = none ∧
    lookupAssoc cex1out.regs "foo".data = none := by
  refine ⟨by decide, by decide, by decide, by decide, by decide, by decide⟩

theorem claim_C1_witness :
    TargetWF cex1out.regs [] "foo".data :=
  (claim_C1 (preprocessFuel cex1code) cex1code 0 0 [] [] [] cex1out
    (by decide) (cex1out.instrs.getD 1 default)
    (by decide) (by decide)).1 (by decide) "foo".data (by decide)

-- ### C5 + witness

theorem claim_C5 :
    ∀ (fuel : Nat) (code : Str) (s : Nat) (ioff : Int) (fns : List Str)
      (regs : List (Str × Nat)) (shd : List Str) (out : PreOut),
      preRec fuel (.top code s ioff fns regs shd) = .ok out →
      ∀ instr ∈ out.instrs, instr.isFunctionCall = true →
        instr.successorIndex =
          (lookupAssoc out.ffl instr.calledFunction).getD 0 ∧
        (∀ v, lookupAssoc out.ffl instr.calledFunction = some v →
          ∃ q ∈ out.instrs, q.isFunctionDefinition = true ∧
            (parseFunctionDefinition q.code).name = instr.calledFunction ∧
            q.childInstructions.head? = some instr.successorIndex) ∧
        (∀ fd, lookupAssoc out.fdefs instr.calledFunction = some fd →
          fd.parameters.length = (parseParameters instr.code).length) := by
  intro fuel code s ioff fns regs shd out h instr hmem hcall
  obtain ⟨_, _, _, hFF, hCL, _⟩ := (preRec_inv fuel).2 _ _ _ _ _ _ _ h
  obtain ⟨hsucc, harity⟩ := hCL instr hmem hcall
  refine ⟨hsucc, ?_, harity⟩
  intro v hv
  obtain ⟨_, q, hq, hq1, _, hq3, hq4⟩ := hFF _ (lookupAssoc_mem hv)
  refine ⟨q, hq, hq1, hq3, ?_⟩
  rw [hsucc, hv, Option.getD_some]
  exact hq4

/-- The program of the C5 witness: a two-qubit gate and a call to it. -/
def bellCode : Str :=
  "gate bell a,b { h a; cx a,b; } qreg q[2]; bell q[0],q[1];".data

/-- The preprocessing result of `bellCode`. -/
def bellOut : PreOut :=
  (preRec (preprocessFuel bellCode)
    (.top bellCode 0 0 [] [] [])).toOption.getD default

theorem claim_C5_witness :
    (bellOut.instrs.getD 5 default).successorIndex =
      (lookupAssoc bellOut.ffl
        (bellOut.instrs.getD 5 default).calledFunction).getD 0 :=
  (claim_C5 (preprocessFuel bellCode) bellCode 0 0 [] [] [] bellOut
    (by decide) (bellOut.instrs.getD 5 default)
    (by decide) (by decide)).1

/-- The program of the C5 counterexample: a gate defined inside another
gate's body, called from the enclosing body. -/
def cex5code : Str :=
  "gate outer a { gate inner b { h b; } inner a; } qreg q[2]; inner q[0],q[1];".data

/-- The preprocessing result of `cex5code`. -/
def cex5out : PreOut :=
  (preRec (preprocessFuel cex5code)
    (.top cex5code 0 0 [] [] [])).toOption.getD default

theorem claim_C5_counterexample :
    (preRec (preprocessFuel cex5code)
      (.top cex5code 0 0 [] [] [])).isOk = true ∧
    (cex5out.instrs.getD 4 default).isFunctionCall = true ∧
    (cex5out.instrs.getD 4 default).calledFunction = "inner".data ∧
    (cex5out.instrs.getD 4 default).successorIndex = 0 ∧
    lookupAssoc cex5out.ffl "inner".data = none ∧
    (cex5out.instrs.getD 1 default).isFunctionDefinition = true ∧
    (parseFunctionDefinition (cex5out.instrs.getD 1 default).code).name =
      "inner".data ∧
    (cex5out.instrs.getD 1 default).childInstructions.headD 0 = 2 := by
  refine ⟨by decide, by decide, by decide, by decide, by decide, by decide,
    by decide, by decide⟩

-- ### C2 amended + counterexample

theorem claim_C2 :
    ∀ (code : Str) (instrs : List Instruction),
      preprocessCodeFull code = .ok instrs →
      ∀ instr ∈ instrs,
        instr.successorIndex = 0 ∨ instr.successorIndex ≤ instrs.length := by
  intro code instrs h instr hmem
  unfold preprocessCodeFull at h
  split at h
  · exact Except.noConfusion h
  · rename_i out hout
    injection h with h
    subst h
    obtain ⟨hlen, _, hII, _, _, _⟩ :=
      (preRec_inv (preprocessFuel code)).2 _ _ _ _ _ _ _ hout
    obtain ⟨h1, _, _⟩ := hII instr hmem
    cases h1 with
    | inl h0 => exact Or.inl h0
    | inr hle =>
      refine Or.inr ?_
      omega

theorem claim_C2_counterexample :
    (preprocessCodeFull "qreg q[1];".data).isOk = true ∧
    ((preprocessCodeFull "qreg q[1];".data).toOption.getD []).length = 1 ∧
    (((preprocessCodeFull "qreg q[1];".data).toOption.getD []).headD
      default).successorIndex = 1 := by
  refine ⟨by decide, by decide, by decide⟩

theorem claim_C2_witness :
    (((preprocessCodeFull "qreg q[2]; h q[0];".data).toOption.getD
        []).headD default).successorIndex = 0 ∨
    (((preprocessCodeFull "qreg q[2]; h q[0];".data).toOption.getD
        []).headD default).successorIndex ≤
      ((preprocessCodeFull "qreg q[2]; h q[0];".data).toOption.getD
        []).length :=
  claim_C2 "qreg q[2]; h q[0];".data
    ((preprocessCodeFull "qreg q[2]; h q[0];".data).toOption.getD [])
    (by decide)
    (((preprocessCodeFull "qreg q[2]; h q[0];".data).toOption.getD
      []).headD default)
    (by decide)

-- ### C4 amended + counterexample

def errorOf {α : Type} : Except PError α → PError
  | .error e => e
  | .ok _ => default

theorem claim_C4_counterexample :
    (preprocessCodeFull "gate g q;".data).isOk = false ∧
    (errorOf (preprocessCodeFull "gate g q;".data)).line = 0 ∧
    (errorOf (preprocessCodeFull "gate g q;".data)).column = 0 ∧
    (errorOf (preprocessCodeFull "gate g q;".data)).message =
      "Gate definitions require a body block".data ∧
    (errorOf (preprocessCodeFull "gate g q;".data)).detail =
      (errorOf (preprocessCodeFull "gate g q;".data)).message ∧
    List.isPrefixOf "<input>:".data
      (errorOf (preprocessCodeFull "gate g q;".data)).message = false := by
  refine ⟨by decide, by decide, by decide, by decide, by decide, by decide⟩

-- ### C8 amended + counterexample

/-- The declared register name as `processVariableDeclaration` computes it
(lines 547-552): strip `creg`/`qreg` and whitespace, split on brackets, first
part. -/
def declName (trimmedLine : Str) : Str :=
  (splitStringKeep (removeWhitespace
    (replaceString (replaceString trimmedLine "creg".data [])
      "qreg".data [])) ['[', ']']).headD []

/-- The size text between the brackets as `processVariableDeclaration`
computes it (line 553): the second bracket-split part, or empty. -/
def declSizeText (trimmedLine : Str) : Str :=
  let parts := splitStringKeep (removeWhitespace
    (replaceString (replaceString trimmedLine "creg".data [])
      "qreg".data [])) ['[', ']']
  if parts.length > 1 then parts.getD 1 [] else []

/-- `processVariableDeclaration` written with the name and size text made
explicit; definitional unfolding only. -/
theorem processVariableDeclaration_eq (origCode : Str) (trueStart : Nat)
    (trimmedLine : Str) (regs : List (Str × Nat)) :
    processVariableDeclaration origCode trueStart trimmedLine regs =
      if declName trimmedLine = [] ∨
          ¬ isDigits (declSizeText trimmedLine) = true then
        .error (mkPError1 (formatParseError origCode trueStart
          (invalidRegisterDetail trimmedLine)))
      else if stoulBound ≤ natOfDigits (declSizeText trimmedLine) then
        .error (mkPError1 (formatParseError origCode trueStart
          (invalidRegisterDetail trimmedLine)))
      else
        .ok (insertAssoc regs (declName trimmedLine)
          (natOfDigits (declSizeText trimmedLine))) := rfl

theorem processVariableDeclaration_error_plain {origCode : Str}
    {trueStart : Nat} {trimmedLine : Str} {regs : List (Str × Nat)}
    {e : PError}
    (h : processVariableDeclaration origCode trueStart trimmedLine regs =
      .error e) : e.line = 0 ∧ e.column = 0 ∧ e.detail = e.message := by
  rw [processVariableDeclaration_eq] at h
  split at h
  · injection h with h
    subst h
    exact ⟨rfl, rfl, rfl⟩
  · split at h
    · injection h with h
      subst h
      exact ⟨rfl, rfl, rfl⟩
    · exact Except.noConfusion h

theorem validateTarget_error_plain {code : Str} {instructionStart : Nat}
    {target : Str} {definedRegisters : List (Str × Nat)}
    {shadowedRegisters : List Str} {context : Str} {e : PError}
    (h : validateTarget code instructionStart target definedRegisters
      shadowedRegisters context = some e) :
    e.line = 0 ∧ e.column = 0 ∧ e.detail = e.message := by
  unfold validateTarget at h
  repeat'
    first
    | (injection h with h
       subst h
       exact ⟨rfl, rfl, rfl⟩)
    | injection h
    | split at h
    | simp only [] at h

theorem validateTargets_error_plain {code : Str} {instructionStart : Nat}
    {targets : List Str} {definedRegisters : List (Str × Nat)}
    {shadowedRegisters : List Str} {context : Str} {e : PError} :
    validateTargets code instructionStart targets definedRegisters
      shadowedRegisters context = some e →
    e.line = 0 ∧ e.column = 0 ∧ e.detail = e.message := by
  induction targets with
  | nil =>
    intro h
    exact Option.noConfusion h
  | cons x rest ih =>
    intro h
    unfold validateTargets at h
    split at h
    · rename_i err hvt
      injection h with h
      subst h
      exact validateTarget_error_plain hvt
    · exact ih h

theorem parseAssertion_error_plain {line blockCode : Str} {e : PError}
    (h : parseAssertion line blockCode = .error e) :
    e.line = 0 ∧ e.column = 0 ∧ e.detail = e.message := by
  unfold parseAssertion at h
  repeat'
    first
    | (injection h with h
       subst h
       exact ⟨rfl, rfl, rfl⟩)
    | injection h
    | split at h
    | simp only [] at h

theorem validateAssertion_error_plain {a : AssertionA} {e : PError}
    (h : validateAssertion a = some e) :
    e.line = 0 ∧ e.column = 0 ∧ e.detail = e.message := by
  unfold validateAssertion at h
  repeat'
    first
    | (injection h with h
       subst h
       exact ⟨rfl, rfl, rfl⟩)
    | injection h
    | split at h
    | simp only [] at h

theorem linkInstruction_error_plain {ffl : List (Str × Nat)}
    {fdefs : List (Str × FunctionDefinition)} {instr : Instruction}
    {e : PError} (h : linkInstruction ffl fdefs instr = .error e) :
    e.line = 0 ∧ e.column = 0 ∧ e.detail = e.message := by
  unfold linkInstruction at h
  repeat'
    first
    | (injection h with h
       subst h
       exact ⟨rfl, rfl, rfl⟩)
    | injection h
    | split at h
    | simp only [] at h

theorem linkCalls_error_plain {ffl : List (Str × Nat)}
    {fdefs : List (Str × FunctionDefinition)} {e : PError} :
    ∀ {l : List Instruction}, linkCalls ffl fdefs l = .error e →
    e.line = 0 ∧ e.column = 0 ∧ e.detail = e.message := by
  intro l
  induction l with
  | nil =>
    intro h
    exact Except.noConfusion h
  | cons x rest ih =>
    intro h
    unfold linkCalls at h
    split at h
    · rename_i err hli
      injection h with h
      subst h
      exact linkInstruction_error_plain hli
    · split at h
      · rename_i err hlc
        injection h with h
        subst h
        exact ih hlc
      · exact Except.noConfusion h

set_option maxHeartbeats 2000000 in
theorem preRec_error_plain : ∀ (fuel : Nat) (c : PreCall) (e : PError),
    preRec fuel c = .error e →
    e.line = 0 ∧ e.column = 0 ∧ e.detail = e.message := by
  intro fuel
  induction fuel with
  | zero =>
    intro c e h
    rw [preRec_zero] at h
    injection h with h
    subst h
    exact ⟨rfl, rfl, rfl⟩
  | succ fuel ih =>
    intro c e h
    rw [preRec_succ] at h
    cases c with
    | top code s ioff fns regs shd =>
      simp only [preRecStep, forceStr_eq, forceStrList_eq,
        forceInstruction_eq, forceList_eq forceInstruction_eq,
        forceList_eq forcePairSS_eq] at h
      split at h
      · rename_i err hloop
        injection h with h
        subst h
        exact ih _ _ hloop
      · split at h
        · rename_i err hlink
          injection h with h
          subst h
          exact linkCalls_error_plain hlink
        · exact Except.noConfusion h
    | loop st =>
      obtain ⟨oc, rest, pos, i, off, regs, shd, fns, blks, acc, ffl,
        fdefs⟩ := st
      simp only [preRecStep, forceNat_eq, forceInt_eq, forceBool_eq,
        forceStr_eq, forceStrList_eq, forceAssocSN_eq, forceAssertionA_eq,
        forceFD_eq, forceAssocFD_eq, forceInstruction_eq, forceFragInfo_eq,
        forceList_eq forceInstruction_eq, forceList_eq forcePairSS_eq] at h
      cases hfind : findCharFrom rest ';' 0 with
      | none =>
        rw [hfind] at h
        simp only [] at h
        exact Except.noConfusion h
      | some e0 =>
        rw [hfind] at h
        simp only [] at h
        split at h
        · rename_i err hdecl
          injection h with h
          subst h
          split at hdecl
          · exact processVariableDeclaration_error_plain hdecl
          · exact Except.noConfusion hdecl
        · rename_i regs0 hdecl
          split at h
          · split at h
            · injection h with h
              subst h
              exact ⟨rfl, rfl, rfl⟩
            · split at h
              · rename_i err hsub
                injection h with h
                subst h
                exact ih _ _ hsub
              · rename_i subInstrs subRegs subFfl subFdefs subIFinal hsub
                split at h
                · injection h with h
                  subst h
                  exact ⟨rfl, rfl, rfl⟩
                · exact ih _ _ h
          · split at h
            · split at h
              · rename_i err hpa
                injection h with h
                subst h
                exact parseAssertion_error_plain hpa
              · rename_i a0 ha0
                split at h
                · rename_i err hva
                  injection h with h
                  subst h
                  exact validateAssertion_error_plain hva
                · split at h
                  · rename_i err hvt
                    injection h with h
                    subst h
                    exact validateTargets_error_plain hvt
                  · exact ih _ _ h
            · split at h
              · rename_i err hvt
                injection h with h
                subst h
                split at hvt
                · exact validateTargets_error_plain hvt
                · exact Option.noConfusion hvt
              · exact ih _ _ h

theorem claim_C4 :
    (∀ (code : Str) (e : PError),
      preprocessCodeFull code = .error e →
      e.line = 0 ∧ e.column = 0 ∧ e.detail = e.message) ∧
    (∀ (code detail target : Str) (instructionStart : Nat),
      1 ≤ (lineColumnForTarget code instructionStart target).line ∧
      formatParseError code instructionStart detail target =
        "<input>:".data ++
          natToStr (lineColumnForTarget code instructionStart target).line ++
          ":".data ++
          natToStr (lineColumnForTarget code instructionStart
            target).column ++
          ": ".data ++ detail) := by
  constructor
  · intro code e h
    unfold preprocessCodeFull at h
    split at h
    · rename_i err hpre
      injection h with h
      subst h
      exact preRec_error_plain _ _ _ hpre
    · exact Except.noConfusion h
  · intro code detail target instructionStart
    refine ⟨?_, rfl⟩
    unfold lineColumnForTarget
    simp only []
    split
    · show 1 ≤ 1 + _
      omega
    · split
      · show 1 ≤ 1 + _
        omega
      · show 1 ≤ 1 + _
        omega

theorem claim_C8 :
    ∀ (origCode : Str) (trueStart : Nat) (trimmedLine : Str)
      (regs : List (Str × Nat)),
      ((processVariableDeclaration origCode trueStart trimmedLine
          regs).isOk = false ↔
        (declName trimmedLine = [] ∨
          isDigits (declSizeText trimmedLine) = false ∨
          stoulBound ≤ natOfDigits (declSizeText trimmedLine))) ∧
      (∀ regs', processVariableDeclaration origCode trueStart trimmedLine
          regs = .ok regs' →
        regs' = insertAssoc regs (declName trimmedLine)
          (natOfDigits (declSizeText trimmedLine))) := by
  intro origCode trueStart trimmedLine regs
  rw [processVariableDeclaration_eq]
  constructor
  · constructor
    · intro hno
      by_cases h1 : declName trimmedLine = [] ∨
          ¬ isDigits (declSizeText trimmedLine) = true
      · rcases h1 with h1 | h1
        · exact Or.inl h1
        · exact Or.inr (Or.inl (by simpa using h1))
      · rw [if_neg h1] at hno
        by_cases h2 : stoulBound ≤ natOfDigits (declSizeText trimmedLine)
        · exact Or.inr (Or.inr h2)
        · rw [if_neg h2] at hno
          exact Bool.noConfusion hno
    · intro hcond
      rcases hcond with h1 | h1 | h1
      · rw [if_pos (Or.inl h1)]
        rfl
      · rw [if_pos (Or.inr (by simp [h1]))]
        rfl
      · by_cases h0 : declName trimmedLine = [] ∨
            ¬ isDigits (declSizeText trimmedLine) = true
        · rw [if_pos h0]
          rfl
        · rw [if_neg h0, if_pos h1]
          rfl
  · intro regs' hok
    split at hok
    · exact Except.noConfusion hok
    · split at hok
      · exact Except.noConfusion hok
      · injection hok with hok
        exact hok.symm

theorem claim_C8_counterexample :
    (processVariableDeclaration [] 0
        "creg c[18446744073709551616]".data []).isOk = false ∧
    declName "creg c[18446744073709551616]".data ≠ [] ∧
    isDigits (declSizeText "creg c[18446744073709551616]".data) = true := by
  refine ⟨by decide, by decide, by decide⟩

-- ### C10

theorem claim_C10 :
    ∀ (origCode : Str) (trueStart : Nat) (trimmedLine : Str)
      (regs : List (Str × Nat)) (name : Str) (s₁ : Nat),
      lookupAssoc regs name = some s₁ →
      declName trimmedLine ≠ [] →
      isDigits (declSizeText trimmedLine) = true →
      natOfDigits (declSizeText trimmedLine) < stoulBound →
      ∃ regs', processVariableDeclaration origCode trueStart trimmedLine
          regs = .ok regs' ∧ lookupAssoc regs' name = some s₁ := by
  intro origCode trueStart trimmedLine regs name s₁ hlk hn hd hb
  rw [processVariableDeclaration_eq]
  rw [if_neg (by
    intro hor
    rcases hor with h1 | h1
    · exact hn h1
    · exact h1 hd)]
  rw [if_neg (Nat.not_le.mpr hb)]
  exact ⟨_, rfl, RegsLe.insert regs _ _ name s₁ hlk⟩

theorem claim_C10_witness :
    ∃ regs', processVariableDeclaration [] 0 "qreg q[7]".data
        [("q".data, 2)] = .ok regs' ∧
      lookupAssoc regs' "q".data = some 2 :=
  claim_C10 [] 0 "qreg q[7]".data [("q".data, 2)] "q".data 2 (by decide)
    (by decide) (by decide) (by decide)



/-! ## Claim C9 -/

/-! ## The execution engine (modelled from the spec)

The simulator sources are not part of the staged repository; the following
definitions are modelled from the spec: a state-vector simulator executes a
program instruction by instruction, stepping backward applies each gate's
analytic inverse in reverse order, measurements collapse the state and are
undone from the measurement log (not modelled), and all amplitude
comparisons use the absolute tolerance `ε_state = 1e-6`. -/

/-- Modelled from the spec: one executable quantum operation of the engine
(a small representative gate set with analytic inverses, plus measurement).
A `cx` whose control equals its target is not a valid gate and acts as the
identity. -/
inductive SimOp
  | x (t : Nat)
  | h (t : Nat)
  | s (t : Nat)
  | cx (c t : Nat)
  | measure (t : Nat)
  deriving DecidableEq, Repr

/-- Modelled from the spec: the state vector, as amplitudes indexed by basis
states. -/
def QState : Type := Nat → ℂ

/-- Modelled from the spec: `1/√2`, the Hadamard coefficient. -/
noncomputable def invSqrt2 : ℂ := ((Real.sqrt 2)⁻¹ : ℝ)

/-- Modelled from the spec: applying one operation to the state vector.
Measurement is modelled as the (unnormalised) collapse onto outcome 0. -/
noncomputable def applyOp : SimOp → QState → QState
  | .x t, v => fun k => v (k ^^^ 2 ^ t)
  | .h t, v => fun k =>
      if k.testBit t then invSqrt2 * (v (k ^^^ 2 ^ t) - v k)
      else invSqrt2 * (v k + v (k ^^^ 2 ^ t))
  | .s t, v => fun k => if k.testBit t then Complex.I * v k else v k
  | .cx c t, v => fun k =>
      if c ≠ t ∧ k.testBit c = true then v (k ^^^ 2 ^ t) else v k
  | .measure t, v => fun k => if k.testBit t then 0 else v k

/-- Modelled from the spec: one backward step applies the gate's analytic
inverse (`x`, `h` and `cx` are self-inverse, the inverse of `s` applies the
conjugate phase); backward stepping over a measurement restores amplitudes
from the measurement log, which is not modelled here. -/
noncomputable def applyInverse : SimOp → QState → QState
  | .s t, v => fun k => if k.testBit t then -(Complex.I * v k) else v k
  | .measure _, v => v
  | op, v => applyOp op v

/-- Modelled from the spec: stepping forward through the whole program. -/
noncomputable def runForward (prog : List SimOp) (v : QState) : QState :=
  prog.foldl (fun w op => applyOp op w) v

/-- Modelled from the spec: stepping backward through the whole program
(inverses in reverse order). -/
noncomputable def runBackward (prog : List SimOp) (v : QState) : QState :=
  prog.foldr (fun op w => applyInverse op w) v

/-- Whether a program is measurement-free. -/
def noMeasurement : List SimOp → Bool
  | [] => true
  | .measure _ :: _ => false
  | _ :: rest => noMeasurement rest

/-- Modelled from the spec: the amplitude comparison tolerance
`ε_state = 1e-6`. -/
noncomputable def epsState : ℝ := 1 / 1000000

theorem xor_xor_cancel (a b : Nat) : a ^^^ b ^^^ b = a := by
  rw [Nat.xor_assoc, Nat.xor_self, Nat.xor_zero]

theorem testBit_xor_pow_self (k t : Nat) :
    (k ^^^ 2 ^ t).testBit t = !k.testBit t := by
  rw [Nat.testBit_xor, Nat.testBit_two_pow_self, Bool.xor_true]

theorem testBit_xor_pow_ne (k c t : Nat) (h : c ≠ t) :
    (k ^^^ 2 ^ t).testBit c = k.testBit c := by
  rw [Nat.testBit_xor, Nat.testBit_two_pow_of_ne (fun hEq => h hEq.symm),
    Bool.xor_false]

theorem invSqrt2_mul_self : invSqrt2 * invSqrt2 = (2 : ℂ)⁻¹ := by
  unfold invSqrt2
  rw [← Complex.ofReal_mul]
  rw [← mul_inv, Real.mul_self_sqrt (by norm_num : (0 : ℝ) ≤ 2)]
  rw [Complex.ofReal_inv]
  norm_num

theorem applyInverse_applyOp (op : SimOp)
    (hop : ∀ u, op ≠ SimOp.measure u) (v : QState) (k : Nat) :
    applyInverse op (applyOp op v) k = v k := by
  cases op with
  | x t =>
    show applyOp (SimOp.x t) (applyOp (SimOp.x t) v) k = v k
    simp only [applyOp]
    rw [xor_xor_cancel]
  | h t =>
    show applyOp (SimOp.h t) (applyOp (SimOp.h t) v) k = v k
    have hxx : k ^^^ 2 ^ t ^^^ 2 ^ t = k := xor_xor_cancel k (2 ^ t)
    cases hb : k.testBit t with
    | false =>
      have hb2 : (k ^^^ 2 ^ t).testBit t = true := by
        rw [testBit_xor_pow_self, hb]
        rfl
      simp [applyOp, hb, hb2, hxx]
      linear_combination (2 * v k) * invSqrt2_mul_self
    | true =>
      have hb2 : (k ^^^ 2 ^ t).testBit t = false := by
        rw [testBit_xor_pow_self, hb]
        rfl
      simp [applyOp, hb, hb2, hxx]
      linear_combination (2 * v k) * invSqrt2_mul_self
  | s t =>
    show (if k.testBit t then
        -(Complex.I * (applyOp (SimOp.s t) v k)) else
        applyOp (SimOp.s t) v k) = v k
    cases hb : k.testBit t with
    | false =>
      simp [applyOp, hb]
    | true =>
      simp [applyOp, hb, ← mul_assoc, Complex.I_mul_I]
  | cx c t =>
    show applyOp (SimOp.cx c t) (applyOp (SimOp.cx c t) v) k = v k
    simp only [applyOp]
    by_cases hct : c = t
    · rw [if_neg (by simp [hct]), if_neg (by simp [hct])]
    · have hb2 : (k ^^^ 2 ^ t).testBit c = k.testBit c :=
        testBit_xor_pow_ne k c t hct
      cases hb : k.testBit c with
      | false =>
        simp [applyOp, hb, hb2, hct]
      | true =>
        simp [applyOp, hb, hb2, hct, xor_xor_cancel]
  | measure t =>
    exact absurd rfl (hop t)

theorem runBackward_runForward (prog : List SimOp) :
    noMeasurement prog = true → ∀ (v : QState) (k : Nat),
      runBackward prog (runForward prog v) k = v k := by
  induction prog with
  | nil => intro _ v k; rfl
  | cons op rest ih =>
    intro hnm v k
    have hop : ∀ u, op ≠ SimOp.measure u := by
      intro u hEq
      subst hEq
      simp [noMeasurement] at hnm
    have hrest : noMeasurement rest = true := by
      cases op with
      | measure u => exact absurd rfl (hop u)
      | x t => exact hnm
      | h t => exact hnm
      | s t => exact hnm
      | cx c t => exact hnm
    show applyInverse op
      (runBackward rest (runForward rest (applyOp op v))) k = v k
    have hmid : runBackward rest (runForward rest (applyOp op v)) =
        applyOp op v := funext (fun j => ih hrest (applyOp op v) j)
    rw [hmid]
    exact applyInverse_applyOp op hop v k

theorem claim_C9 :
    ∀ (prog : List SimOp) (v : QState) (k : Nat),
      noMeasurement prog = true →
      Complex.abs (runBackward prog (runForward prog v) k - v k) ≤
        epsState := by
  intro prog v k hnm
  rw [runBackward_runForward prog hnm v k]
  rw [sub_self]
  rw [map_zero]
  unfold epsState
  norm_num

theorem claim_C9_witness :
    Complex.abs (runBackward [SimOp.h 0, SimOp.s 0, SimOp.h 0]
      (runForward [SimOp.h 0, SimOp.s 0, SimOp.h 0]
        (fun j => if j = 0 then 1 else 0)) 0 -
      (fun j : Nat => if j = 0 then (1 : ℂ) else 0) 0) ≤ epsState :=
  claim_C9 [SimOp.h 0, SimOp.s 0, SimOp.h 0]
    (fun j => if j = 0 then 1 else 0) 0 (by decide)

end MQTDebugger
